import Mathlib

/-!
Verification of the dir-kill directory tool core against its specification.

The Rust sources are shallowly embedded:
* the filesystem is a finite rose tree (`FsEntry`); a directory carries a
  `readable` flag that decides whether `read_dir` on it succeeds;
* regexes are abstracted as Boolean predicates on strings (the regex engine
  is an external crate; only "does some pattern match the basename" is used);
* channels are modelled by the list of messages sent on them, in order;
* paths are lists of components from the search root;
* Rust u64 arithmetic is modelled by Nat; no claim below concerns
  wraparound behaviour and realistic directory sizes stay far below 2^64;
* wall-clock instants are abstract Nat values supplied by the caller.
-/

/-- `DeletionStatus` from src/fs/mod.rs. -/
inductive DeletionStatus where
  | normal
  | deleting
  | deleted
  | error (msg : String)
deriving DecidableEq, Repr

/-- `CalculationStatus` from src/fs/mod.rs. -/
inductive CalculationStatus where
  | notStarted
  | calculating
  | completed
  | error (msg : String)
deriving DecidableEq, Repr

/-- `DirectoryInfo` from src/fs/mod.rs.  `last_modified` is an abstract
instant (`Option Nat`). -/
structure DirectoryInfo where
  path : String
  size : Nat
  formatted_size : String
  last_modified : Option Nat
  formatted_last_modified : String
  selected : Bool
  deletion_status : DeletionStatus
  calculation_status : CalculationStatus
deriving DecidableEq, Repr

/-- `IgnorePatterns` from src/fs/mod.rs: an ordered sequence of compiled
regexes, each abstracted as a predicate on the basename. -/
structure IgnorePatterns where
  patterns : List (String → Bool)

/-- `IgnorePatterns::should_ignore`: fast path for the empty set, otherwise
a short-circuit disjunction (`Iterator::any`) over the patterns. -/
def IgnorePatterns.should_ignore (ip : IgnorePatterns) (dir_name : String) : Bool :=
  if ip.patterns.isEmpty then false
  else ip.patterns.any (fun pattern => pattern dir_name)

/-- `IgnorePatterns::is_empty`. -/
def IgnorePatterns.is_empty (ip : IgnorePatterns) : Bool :=
  ip.patterns.isEmpty

/-- A filesystem subtree.  `dir name readable children`: `read_dir` on the
directory succeeds exactly when `readable` is true (a permission-denied
directory has `readable = false`).  Files carry their byte length. -/
inductive FsEntry : Type where
  | file : String → Nat → FsEntry
  | dir : String → Bool → List FsEntry → FsEntry

/-- Name of an entry (the final path component, `file_name`). -/
def FsEntry.name : FsEntry → String
  | .file n _ => n
  | .dir n _ _ => n

/-- `DiscoveryMessage` from src/fs/mod.rs; paths are component lists
relative to the search root. -/
inductive DiscoveryMessage where
  | directoryFound (path : List String)
  | discoveryComplete
  | discoveryError (msg : String)
deriving DecidableEq, Repr

/-- The loop body of `stream_directories_recursive_with_depth`
(src/fs/mod.rs lines 243-297) over the entries of the directory at path
`cur`.  Returns the `DirectoryFound` paths sent on the channel, in order,
paired with `true` for `Ok(())` and `false` for an `Err` propagated by the
`?` on `read_dir`/`entry`.  For each child directory: the ignore check
comes first (`continue`), then a name equal to the pattern is emitted and
not descended into (`continue`), otherwise the walk recurses; a failing
`read_dir` in the recursion aborts the whole walk, dropping the remaining
siblings at every level. -/
def stream_children (pat : String) (ign : IgnorePatterns) :
    List String → List FsEntry → List (List String) × Bool
  | _, [] => ([], true)
  | cur, .file _ _ :: rest => stream_children pat ign cur rest
  | cur, .dir name readable cs :: rest =>
    if ign.should_ignore name then stream_children pat ign cur rest
    else if name = pat then
      let r := stream_children pat ign cur rest
      ((cur ++ [name]) :: r.1, r.2)
    else if readable then
      match stream_children pat ign (cur ++ [name]) cs with
      | (ms1, true) =>
        let r2 := stream_children pat ign cur rest
        (ms1 ++ r2.1, r2.2)
      | (ms1, false) => (ms1, false)
    else ([], false)

/-- `stream_directories_with_ignore` (src/fs/mod.rs lines 200-230): the
full message stream sent on the discovery channel, paired with the
function result.  An empty pattern or a non-directory root bails before
any message; a `read_dir` failure on the root (or anywhere below, via `?`)
returns `Err` without the terminal `DiscoveryComplete`. -/
def stream_directories_with_ignore (root : FsEntry) (pattern : String)
    (ign : IgnorePatterns) : List DiscoveryMessage × Bool :=
  if pattern.isEmpty then ([], false)
  else match root with
    | .file _ _ => ([], false)
    | .dir _ readable children =>
      if readable then
        match stream_children pattern ign [] children with
        | (founds, true) => (founds.map .directoryFound ++ [.discoveryComplete], true)
        | (founds, false) => (founds.map .directoryFound, false)
      else ([], false)

/-- The loop of `calculate_directory_size` (src/fs/mod.rs lines 422-439)
over the entries of one directory: regular files add their length, child
directories recurse, and every `read_dir` failure is propagated by `?`,
aborting the whole computation.  (The Rust code folds into an accumulator
left to right; the value of the sum is the same.) -/
def calc_dir_children : List FsEntry → Except String Nat
  | [] => .ok 0
  | .file _ sz :: rest => do
      let t ← calc_dir_children rest
      pure (sz + t)
  | .dir _ readable cs :: rest =>
      if readable then do
        let s ← calc_dir_children cs
        let t ← calc_dir_children rest
        pure (s + t)
      else .error "read_dir failed"

/-- `calculate_directory_size` (src/fs/mod.rs lines 422-439) on the entry
the path points at: a non-directory yields `Ok(0)` (the `is_dir` guard),
an unreadable directory fails on `read_dir`. -/
def calculate_directory_size : FsEntry → Except String Nat
  | .file _ _ => .ok 0
  | .dir _ readable cs =>
      if readable then calc_dir_children cs else .error "read_dir failed"

/-- The size and calculation status a matched directory receives in
`find_directories_with_size_and_ignore` (src/fs/mod.rs lines 320-356):
`calculate_directory_size(path).unwrap_or(0)` and
`calculation_status: CalculationStatus::Completed`. -/
def found_entry_size_status (t : FsEntry) : Nat × CalculationStatus :=
  (match calculate_directory_size t with
    | .ok n => n
    | .error _ => 0,
   .completed)

/-- True when every directory in the forest is readable, i.e. when the
sequential size walk reaches every entry without a `read_dir` error. -/
def all_readable : List FsEntry → Bool
  | [] => true
  | .file _ _ :: rest => all_readable rest
  | .dir _ r cs :: rest => r && all_readable cs && all_readable rest

/-- Total byte length of all regular files in the forest (what the walk
sums when nothing is unreadable). -/
def sum_file_sizes : List FsEntry → Nat
  | [] => 0
  | .file _ sz :: rest => sz + sum_file_sizes rest
  | .dir _ _ cs :: rest => sum_file_sizes cs + sum_file_sizes rest

/-- The property the specification asserts for the size calculation: the
sum of regular-file byte lengths of the readable part of the subtree,
unreadable subtrees contributing 0.  Stated from the words of the
specification, for comparison with `calculate_directory_size`. -/
def readable_partial_size : List FsEntry → Nat
  | [] => 0
  | .file _ sz :: rest => sz + readable_partial_size rest
  | .dir _ r cs :: rest =>
      (if r then readable_partial_size cs else 0) + readable_partial_size rest

example :
    (stream_children "node_modules" ⟨[]⟩ []
      [.dir "a" true [.dir "node_modules" true [.dir "node_modules" true []]]]).1
      = [["a", "node_modules"]] := by
  simp [stream_children, IgnorePatterns.should_ignore]

/-- `DeletionPriority` from src/ui/app.rs; the Rust `derive(Ord)` orders by
declaration order: Small < Medium < Large < Huge. -/
inductive DeletionPriority where
  | small
  | medium
  | large
  | huge
deriving DecidableEq, Repr

/-- Rank realising the derived order on `DeletionPriority`. -/
def DeletionPriority.toNat : DeletionPriority → Nat
  | .small => 0
  | .medium => 1
  | .large => 2
  | .huge => 3

/-- `DeletionTask` from src/ui/app.rs. -/
structure DeletionTask where
  index : Nat
  path : String
  priority : DeletionPriority
  size : Nat
deriving DecidableEq, Repr

/-- `get_deletion_priority` (src/ui/app.rs lines 240-247): the match on
the ranges `0..=1_048_576`, `1_048_577..=104_857_600`,
`104_857_601..=1_073_741_824`, `_`. -/
def get_deletion_priority (size : Nat) : DeletionPriority :=
  if size ≤ 1048576 then .small
  else if size ≤ 104857600 then .medium
  else if size ≤ 1073741824 then .large
  else .huge

/-- `DeletionThreadPool::add_task` (src/ui/app.rs lines 203-221): insert
the task in front of the first queued task of strictly greater priority
rank, or push it at the back.  Workers dequeue with `pop_front`, so the
resulting list is the start order. -/
def add_task : List DeletionTask → DeletionTask → List DeletionTask
  | [], t => [t]
  | x :: xs, t =>
    if t.priority.toNat < x.priority.toNat then t :: x :: xs
    else x :: add_task xs t

/-- Enqueue a submission sequence into an initially empty queue. -/
def enqueue_all (ts : List DeletionTask) : List DeletionTask :=
  ts.foldl add_task []

/-- `DiscoveryStatus` from src/ui/app.rs. -/
inductive DiscoveryStatus where
  | notStarted
  | discovering
  | complete
  | error (msg : String)
deriving DecidableEq, Repr

/-- `FreedSpaceEntry` from src/ui/app.rs; the timestamp is an abstract
instant. -/
structure FreedSpaceEntry where
  path : String
  size : Nat
  timestamp : Nat
deriving DecidableEq, Repr

/-- `DeletionResult` from src/ui/app.rs. -/
structure DeletionResult where
  index : Nat
  path : String
  success : Bool
  error : Option String
deriving DecidableEq, Repr

/-- `DeletionMessage` from src/ui/app.rs. -/
inductive DeletionMessage where
  | startSingle (index : Nat) (path : String)
  | startMultiple (indices : List Nat) (paths : List String)
  | progress (index : Nat) (status : DeletionStatus)
  | complete (results : List DeletionResult)
deriving DecidableEq, Repr

/-- `DeletionProgress` from src/ui/app.rs. -/
structure DeletionProgress where
  total_items : Nat
  completed_items : Nat
  current_path : String
  deleted_paths : List String
  errors : List String
  freed_space : Nat
  freed_space_this_session : Nat
deriving DecidableEq, Repr

/-- The `App` state from src/ui/app.rs, restricted to its data fields.
The channel handles and the thread pool are omitted: all the operations
below touch only these fields. -/
structure App where
  directories : List DirectoryInfo
  selected : Nat
  pattern : String
  path : String
  current_page : Nat
  selection_mode : Bool
  deletion_progress : Option DeletionProgress
  total_freed_space : Nat
  freed_space_history : List FreedSpaceEntry
  discovery_status : DiscoveryStatus
  pending_directories : List String
  batch_size : Nat
  total_discovered : Nat

/-- `App::new_with_ignore` (src/ui/app.rs lines 259-284): the initial
field values (batch size defaults to 5). -/
def App.new_with_ignore (directories : List DirectoryInfo) (pattern path : String) : App :=
  { directories := directories
    selected := 0
    pattern := pattern
    path := path
    current_page := 0
    selection_mode := false
    deletion_progress := none
    total_freed_space := 0
    freed_space_history := []
    discovery_status := .notStarted
    pending_directories := []
    batch_size := 5
    total_discovered := 0 }

/-- `App::update_selection_for_pagination` (src/ui/app.rs lines 479-487):
clamp the cursor into bounds and recompute the page as
`selected / items_per_page`. -/
def App.update_selection_for_pagination (s : App) (items_per_page : Nat) : App :=
  let s :=
    if s.directories.length ≤ s.selected then
      { s with selected := s.directories.length - 1 }
    else s
  { s with current_page := s.selected / items_per_page }

/-- `App::next` (src/ui/app.rs lines 391-396): step the cursor with
wraparound, then `update_selection_for_pagination`. -/
def App.next (s : App) (items_per_page : Nat) : App :=
  if s.directories.isEmpty then s
  else
    let s := { s with selected := (s.selected + 1) % s.directories.length }
    s.update_selection_for_pagination items_per_page

/-- `App::previous` (src/ui/app.rs lines 398-407). -/
def App.previous (s : App) (items_per_page : Nat) : App :=
  if s.directories.isEmpty then s
  else
    let s := { s with
      selected := if s.selected = 0 then s.directories.length - 1 else s.selected - 1 }
    s.update_selection_for_pagination items_per_page

/-- `App::select_first` (src/ui/app.rs lines 409-413): sets the cursor to
0 on a non-empty list; `current_page` is not touched. -/
def App.select_first (s : App) : App :=
  if s.directories.isEmpty then s else { s with selected := 0 }

/-- `App::select_last` (src/ui/app.rs lines 415-419): sets the cursor to
the last index; `current_page` is not touched. -/
def App.select_last (s : App) : App :=
  if s.directories.isEmpty then s
  else { s with selected := s.directories.length - 1 }

/-- `App::total_pages` (src/ui/app.rs lines 434-440). -/
def App.total_pages (s : App) (items_per_page : Nat) : Nat :=
  if s.directories.isEmpty || items_per_page = 0 then 0
  else (s.directories.length - 1) / items_per_page + 1

/-- `App::next_page` (src/ui/app.rs lines 456-462): advance the page when
not on the last one and snap the cursor to the top of the page. -/
def App.next_page (s : App) (items_per_page : Nat) : App :=
  if s.current_page < s.total_pages items_per_page - 1 then
    let s := { s with current_page := s.current_page + 1 }
    { s with selected := s.current_page * items_per_page }
  else s

/-- `App::previous_page` (src/ui/app.rs lines 464-470). -/
def App.previous_page (s : App) (items_per_page : Nat) : App :=
  if 0 < s.current_page then
    let s := { s with current_page := s.current_page - 1 }
    { s with selected := s.current_page * items_per_page }
  else s

/-- `App::go_to_page` (src/ui/app.rs lines 472-477). -/
def App.go_to_page (s : App) (page items_per_page : Nat) : App :=
  if page < s.total_pages items_per_page then
    { s with current_page := page, selected := page * items_per_page }
  else s

/-- `App::toggle_selection_mode` (src/ui/app.rs lines 490-492). -/
def App.toggle_selection_mode (s : App) : App :=
  { s with selection_mode := !s.selection_mode }

/-- `App::toggle_current_selection` (src/ui/app.rs lines 494-498). -/
def App.toggle_current_selection (s : App) : App :=
  if s.directories ≠ [] ∧ s.selected < s.directories.length then
    { s with directories :=
        s.directories.modify (fun d => { d with selected := !d.selected }) s.selected }
  else s

/-- `App::select_all` (src/ui/app.rs lines 500-504). -/
def App.select_all (s : App) : App :=
  { s with directories := s.directories.map (fun d => { d with selected := true }) }

/-- `App::deselect_all` (src/ui/app.rs lines 506-510). -/
def App.deselect_all (s : App) : App :=
  { s with directories := s.directories.map (fun d => { d with selected := false }) }

/-- `App::select_current` (src/ui/app.rs lines 512-516). -/
def App.select_current (s : App) : App :=
  if s.directories ≠ [] ∧ s.selected < s.directories.length then
    { s with directories :=
        s.directories.modify (fun d => { d with selected := true }) s.selected }
  else s

/-- `App::deselect_current` (src/ui/app.rs lines 518-522). -/
def App.deselect_current (s : App) : App :=
  if s.directories ≠ [] ∧ s.selected < s.directories.length then
    { s with directories :=
        s.directories.modify (fun d => { d with selected := false }) s.selected }
  else s

/-- The `DirectoryInfo` built for a freshly promoted path in
`App::process_pending_batch` (src/ui/app.rs lines 310-330).  The calls
into the OS are parameters: `parentFn` models `Path::parent` (`none` for a
path without a parent, matching `unwrap_or(path)` via `getD`), `lmFn`
models `get_directory_last_modified`, `fmtFn` models
`format_last_modified`. -/
def mk_discovered_entry (parentFn : String → Option String)
    (lmFn : String → Option Nat) (fmtFn : Nat → String)
    (dir_path : String) : DirectoryInfo :=
  let last_modified := lmFn ((parentFn dir_path).getD dir_path)
  { path := dir_path
    size := 0
    formatted_size := "Calculating..."
    last_modified := last_modified
    formatted_last_modified :=
      match last_modified with
      | some t => fmtFn t
      | none => "Unknown"
    selected := false
    deletion_status := .normal
    calculation_status := .notStarted }

/-- `App::process_pending_batch` (src/ui/app.rs lines 298-335): drain the
first `min batch_size pending.length` pending paths and append them, in
order, to the entry list.  (`start_size_calculation_for_new_items` is a
no-op in the source.) -/
def App.process_pending_batch (parentFn : String → Option String)
    (lmFn : String → Option Nat) (fmtFn : Nat → String) (s : App) : App :=
  if s.pending_directories.isEmpty then s
  else
    let n := min s.batch_size s.pending_directories.length
    { s with
      pending_directories := s.pending_directories.drop n
      directories := s.directories ++
        (s.pending_directories.take n).map (mk_discovered_entry parentFn lmFn fmtFn) }

/-- `App::add_discovered_directory` (src/ui/app.rs lines 287-295): push the
path onto the pending buffer, bump `total_discovered`, and process a batch
once the buffer holds at least `batch_size` entries. -/
def App.add_discovered_directory (parentFn : String → Option String)
    (lmFn : String → Option Nat) (fmtFn : Nat → String) (s : App) (p : String) : App :=
  let s := { s with
    pending_directories := s.pending_directories ++ [p]
    total_discovered := s.total_discovered + 1 }
  if s.batch_size ≤ s.pending_directories.length then
    s.process_pending_batch parentFn lmFn fmtFn
  else s

/-- `App::process_remaining_pending` (src/ui/app.rs lines 346-350): loop
`process_pending_batch` until the pending buffer is empty.  With
`batch_size = 0` the Rust loop never terminates; the model stops instead —
the program only runs this with the constructor value `batch_size = 5`,
where both agree. -/
def App.process_remaining_pending (parentFn : String → Option String)
    (lmFn : String → Option Nat) (fmtFn : Nat → String) (s : App) : App :=
  if s.pending_directories.isEmpty then s
  else if s.batch_size = 0 then s
  else App.process_remaining_pending parentFn lmFn fmtFn
    (s.process_pending_batch parentFn lmFn fmtFn)
termination_by s.pending_directories.length
decreasing_by
  rename_i h1 h2
  have hne : s.pending_directories ≠ [] := by simpa using h1
  have hlen : 0 < s.pending_directories.length := List.length_pos.mpr hne
  have hb : 0 < s.batch_size := Nat.pos_of_ne_zero (by simpa using h2)
  simp only [App.process_pending_batch]
  rw [if_neg (by simpa using h1)]
  simp only [List.length_drop]
  omega

/-- `App::set_discovery_status` (src/ui/app.rs lines 353-360): store the
status and, when it is `Complete`, promote everything still pending. -/
def App.set_discovery_status (parentFn : String → Option String)
    (lmFn : String → Option Nat) (fmtFn : Nat → String)
    (s : App) (status : DiscoveryStatus) : App :=
  let s := { s with discovery_status := status }
  match status with
  | .complete => s.process_remaining_pending parentFn lmFn fmtFn
  | _ => s

/-- One `DeletionResult` of a `Complete` message, as processed by
`App::process_deletion_messages` (src/ui/app.rs lines 676-708): on
success, credit the last known size of the entry to the freed-space
ledger, append a history row stamped `now`, and mark the entry `Deleted`;
on failure, mark it `Error` and leave the ledger alone.  Out-of-range
indices are skipped. -/
def App.process_deletion_result (now : Nat) (s : App) (r : DeletionResult) : App :=
  if h : r.index < s.directories.length then
    if r.success then
      let freed_size := (s.directories.get ⟨r.index, h⟩).size
      let row : FreedSpaceEntry := { path := r.path, size := freed_size, timestamp := now }
      let s := { s with
        total_freed_space := s.total_freed_space + freed_size
        freed_space_history := s.freed_space_history ++ [row] }
      let bump := fun (p : DeletionProgress) => { p with freed_space := p.freed_space + freed_size }
      let s := { s with deletion_progress := s.deletion_progress.map bump }
      let dirs := s.directories.modify (fun d => { d with deletion_status := .deleted }) r.index
      { s with directories := dirs }
    else
      let msg := r.error.getD "Unknown error"
      let dirs := s.directories.modify (fun d => { d with deletion_status := .error msg }) r.index
      { s with directories := dirs }
  else s

/-- One `DeletionMessage`, as processed by `App::process_deletion_messages`
(src/ui/app.rs lines 650-715). -/
def App.process_deletion_message (now : Nat) (s : App) (m : DeletionMessage) : App :=
  match m with
  | .startSingle index _ =>
    if index < s.directories.length then
      { s with directories :=
          s.directories.modify (fun d => { d with deletion_status := .deleting }) index }
    else s
  | .startMultiple indices _ =>
    indices.foldl (fun s index =>
      if index < s.directories.length then
        { s with directories :=
            s.directories.modify (fun d => { d with deletion_status := .deleting }) index }
      else s) s
  | .progress index status =>
    if index < s.directories.length then
      { s with directories :=
          s.directories.modify (fun d => { d with deletion_status := status }) index }
    else s
  | .complete results =>
    let s := results.foldl (App.process_deletion_result now) s
    { s with deletion_progress := none }

/-- `App::process_deletion_messages`: drain the deletion channel, i.e.
fold over the list of messages received this tick. -/
def App.process_deletion_messages (now : Nat) (s : App) (ms : List DeletionMessage) : App :=
  ms.foldl (App.process_deletion_message now) s

/-- Sum of the sizes recorded in the freed-space history. -/
def history_total (h : List FreedSpaceEntry) : Nat :=
  (h.map FreedSpaceEntry.size).sum

/-! ### The deletion priority queue (claim C6) -/

theorem DeletionPriority.toNat_inj :
    ∀ a b : DeletionPriority, a.toNat = b.toNat ↔ a = b := by
  intro a b
  cases a <;> cases b <;> simp [DeletionPriority.toNat]

/-- Membership in the queue after `add_task`. -/
theorem mem_add_task {t x : DeletionTask} :
    ∀ {q : List DeletionTask}, x ∈ add_task q t ↔ x ∈ q ∨ x = t := by
  intro q
  induction q with
  | nil => simp [add_task]
  | cons y ys ih =>
    simp only [add_task]
    split
    · simp [List.mem_cons, or_comm, or_assoc, or_left_comm]
    · simp [List.mem_cons, ih, or_assoc]

/-- `add_task` keeps the queue sorted by priority rank. -/
theorem pairwise_add_task {t : DeletionTask} :
    ∀ {q : List DeletionTask},
      q.Pairwise (fun a b => a.priority.toNat ≤ b.priority.toNat) →
      (add_task q t).Pairwise (fun a b => a.priority.toNat ≤ b.priority.toNat) := by
  intro q
  induction q with
  | nil => intro _; simp [add_task]
  | cons y ys ih =>
    intro h
    rw [List.pairwise_cons] at h
    simp only [add_task]
    split
    · rename_i hlt
      refine List.Pairwise.cons ?_ (List.Pairwise.cons h.1 h.2)
      intro z hz
      rcases List.mem_cons.mp hz with hz | hz
      · subst hz; exact Nat.le_of_lt hlt
      · exact Nat.le_trans (Nat.le_of_lt hlt) (h.1 z hz)
    · rename_i hge
      refine List.Pairwise.cons ?_ (ih h.2)
      intro z hz
      rcases mem_add_task.mp hz with hz | hz
      · exact h.1 z hz
      · subst hz; exact Nat.le_of_not_lt hge

/-- On a queue sorted by priority rank, `add_task` is a stable insertion:
restricted to any one priority class it appends at the back. -/
theorem filter_add_task (p : DeletionPriority) (t : DeletionTask) :
    ∀ {q : List DeletionTask},
      q.Pairwise (fun a b => a.priority.toNat ≤ b.priority.toNat) →
      (add_task q t).filter (fun x => x.priority == p) =
        q.filter (fun x => x.priority == p) ++
          (if t.priority == p then [t] else []) := by
  intro q
  induction q with
  | nil =>
    intro _
    simp only [add_task, List.filter_nil, List.nil_append]
    split <;> rename_i h <;> simp [List.filter, h]
  | cons y ys ih =>
    intro h
    rw [List.pairwise_cons] at h
    simp only [add_task]
    split
    · rename_i hlt
      by_cases hp : t.priority = p
      · subst hp
        have hnone : ∀ z ∈ y :: ys, ¬ (z.priority == t.priority) = true := by
          intro z hz
          have hle : y.priority.toNat ≤ z.priority.toNat := by
            rcases List.mem_cons.mp hz with hz | hz
            · subst hz; exact Nat.le_refl _
            · exact h.1 z hz
          intro hbeq
          have : z.priority = t.priority := by simpa using hbeq
          rw [this] at hle
          exact Nat.lt_irrefl _ (Nat.lt_of_lt_of_le hlt hle)
        rw [List.filter_cons_of_pos (by simp), List.filter_eq_nil_iff.mpr hnone]
        simp [List.filter_eq_nil_iff.mpr hnone]
      · have hbeq : (t.priority == p) = false := by simpa using hp
        rw [List.filter_cons_of_neg (by simp [hbeq]), hbeq]
        simp
    · rename_i hge
      by_cases hy : y.priority = p
      · rw [List.filter_cons_of_pos (by simp [hy]), List.filter_cons_of_pos (by simp [hy])]
        rw [ih h.2]
        simp
      · have hbeq : (y.priority == p) = false := by simpa using hy
        rw [List.filter_cons_of_neg (by simp [hbeq]), List.filter_cons_of_neg (by simp [hbeq])]
        exact ih h.2

/-- Folding task submissions into a sorted queue keeps it sorted. -/
theorem pairwise_foldl_add_task :
    ∀ (ts : List DeletionTask) (q : List DeletionTask),
      q.Pairwise (fun a b => a.priority.toNat ≤ b.priority.toNat) →
      (ts.foldl add_task q).Pairwise (fun a b => a.priority.toNat ≤ b.priority.toNat) := by
  intro ts
  induction ts with
  | nil => intro q h; simpa using h
  | cons t ts ih =>
    intro q h
    exact ih (add_task q t) (pairwise_add_task h)

/-- Folding task submissions into a sorted queue appends, class by class. -/
theorem filter_foldl_add_task (p : DeletionPriority) :
    ∀ (ts : List DeletionTask) (q : List DeletionTask),
      q.Pairwise (fun a b => a.priority.toNat ≤ b.priority.toNat) →
      (ts.foldl add_task q).filter (fun x => x.priority == p) =
        q.filter (fun x => x.priority == p) ++ ts.filter (fun x => x.priority == p) := by
  intro ts
  induction ts with
  | nil => intro q h; simp
  | cons t ts ih =>
    intro q h
    simp only [List.foldl_cons]
    rw [ih (add_task q t) (pairwise_add_task h), filter_add_task p t h]
    by_cases hp : t.priority = p
    · simp [List.filter_cons, hp]
    · have hbeq : (t.priority == p) = false := by simpa using hp
      simp [List.filter_cons, hbeq]

/-- The queue built from an empty queue is sorted by priority rank. -/
theorem pairwise_enqueue_all (ts : List DeletionTask) :
    (enqueue_all ts).Pairwise (fun a b => a.priority.toNat ≤ b.priority.toNat) :=
  pairwise_foldl_add_task ts [] (List.Pairwise.nil)

/-- Within one priority class, the queue preserves submission order. -/
theorem filter_enqueue_all (ts : List DeletionTask) (p : DeletionPriority) :
    (enqueue_all ts).filter (fun x => x.priority == p) =
      ts.filter (fun x => x.priority == p) := by
  have := filter_foldl_add_task p ts [] (List.Pairwise.nil)
  simpa [enqueue_all] using this

/-- C6: for tasks all enqueued (via `DeletionThreadPool::add_task`) before
any worker dequeues, the queue order — which is the start order, since
workers `pop_front` — puts every task of strictly lower priority class
before every task of a strictly higher class (first conjunct), dequeues
equal-priority tasks in FIFO submission order (second conjunct), and the
priority classes derive from the size with the thresholds of
`get_deletion_priority`: at most 1 MiB is Small, at most 100 MiB is
Medium, at most 1 GiB is Large, above that Huge (remaining conjuncts). -/
theorem deletion_priority_order (ts : List DeletionTask) :
    (∀ i j : Fin (enqueue_all ts).length,
        ((enqueue_all ts).get i).priority.toNat < ((enqueue_all ts).get j).priority.toNat →
        i < j) ∧
    (∀ p, (enqueue_all ts).filter (fun x => x.priority == p) =
        ts.filter (fun x => x.priority == p)) ∧
    get_deletion_priority 1048576 = .small ∧
    get_deletion_priority 1048577 = .medium ∧
    get_deletion_priority 104857600 = .medium ∧
    get_deletion_priority 104857601 = .large ∧
    get_deletion_priority 1073741824 = .large ∧
    get_deletion_priority 1073741825 = .huge := by
  refine ⟨?_, fun p => filter_enqueue_all ts p, by decide, by decide, by decide,
    by decide, by decide, by decide⟩
  intro i j hlt
  rcases Nat.lt_trichotomy i.val j.val with h | h | h
  · exact h
  · exact absurd (by rw [Fin.eq_of_val_eq h]) (Nat.ne_of_lt hlt ∘ congrArg _)
  · have := (List.pairwise_iff_get.mp (pairwise_enqueue_all ts)) j i h
    exact absurd hlt (Nat.not_lt_of_le this)

/-- The scenario of E5: tasks sized 2 GiB, 500 KB, 50 MB, 500 MB in
submission order, priorities assigned by `get_deletion_priority`. -/
def e5_tasks : List DeletionTask :=
  [ { index := 0, path := "huge", priority := get_deletion_priority 2147483648,
      size := 2147483648 },
    { index := 1, path := "small", priority := get_deletion_priority 512000,
      size := 512000 },
    { index := 2, path := "medium", priority := get_deletion_priority 52428800,
      size := 52428800 },
    { index := 3, path := "large", priority := get_deletion_priority 524288000,
      size := 524288000 } ]

/-- Witness for C6 at the E5 scenario: in the built queue the small task
sits at position 0 and the huge task at position 3, and the theorem
instance concludes 0 < 3 from their priority ranks. -/
theorem deletion_priority_order_witness :
    ((enqueue_all e5_tasks).map DeletionTask.size =
      [512000, 52428800, 524288000, 2147483648]) ∧
    (⟨0, by decide⟩ : Fin (enqueue_all e5_tasks).length) < ⟨3, by decide⟩ :=
  ⟨by decide,
   (deletion_priority_order e5_tasks).1 ⟨0, by decide⟩ ⟨3, by decide⟩ (by decide)⟩

/-! ### The streaming discoverer (claims C1, C2, C7) -/

theorem stream_children_nil (pat : String) (ign : IgnorePatterns) (cur : List String) :
    stream_children pat ign cur [] = ([], true) := by
  simp [stream_children]

theorem stream_children_file (pat : String) (ign : IgnorePatterns) (cur : List String)
    (n : String) (sz : Nat) (rest : List FsEntry) :
    stream_children pat ign cur (.file n sz :: rest) = stream_children pat ign cur rest := by
  simp [stream_children]

theorem stream_children_ignored (pat : String) (ign : IgnorePatterns) (cur : List String)
    (name : String) (readable : Bool) (cs rest : List FsEntry)
    (hig : ign.should_ignore name = true) :
    stream_children pat ign cur (.dir name readable cs :: rest) =
      stream_children pat ign cur rest := by
  rw [stream_children]
  simp [hig]

theorem stream_children_matched (pat : String) (ign : IgnorePatterns) (cur : List String)
    (name : String) (readable : Bool) (cs rest : List FsEntry)
    (hig : ign.should_ignore name = false) (hnp : name = pat) :
    stream_children pat ign cur (.dir name readable cs :: rest) =
      ((cur ++ [name]) :: (stream_children pat ign cur rest).1,
        (stream_children pat ign cur rest).2) := by
  subst hnp
  rw [stream_children]
  simp [hig]

theorem stream_children_unreadable (pat : String) (ign : IgnorePatterns) (cur : List String)
    (name : String) (cs rest : List FsEntry)
    (hig : ign.should_ignore name = false) (hnp : name ≠ pat) :
    stream_children pat ign cur (.dir name false cs :: rest) = ([], false) := by
  rw [stream_children]
  simp [hig, hnp]

theorem stream_children_descend (pat : String) (ign : IgnorePatterns) (cur : List String)
    (name : String) (cs rest : List FsEntry)
    (hig : ign.should_ignore name = false) (hnp : name ≠ pat) :
    stream_children pat ign cur (.dir name true cs :: rest) =
      match stream_children pat ign (cur ++ [name]) cs with
      | (ms1, true) =>
        (ms1 ++ (stream_children pat ign cur rest).1, (stream_children pat ign cur rest).2)
      | (ms1, false) => (ms1, false) := by
  rw [stream_children]
  simp [hig, hnp]

/-- Every path the walk emits extends the current path by a chain of
directory names that each passed the ignore check, the last component is
the pattern, and no interior component equals the pattern. -/
theorem mem_stream_children (pat : String) (ign : IgnorePatterns) :
    ∀ (n : Nat) (es : List FsEntry), sizeOf es ≤ n →
      ∀ (cur p : List String), p ∈ (stream_children pat ign cur es).1 →
      ∃ q, p = cur ++ q ++ [pat] ∧ (∀ c ∈ q, c ≠ pat) ∧
        (∀ c ∈ q, ign.should_ignore c = false) ∧ ign.should_ignore pat = false := by
  intro n
  induction n with
  | zero =>
    intro es h
    cases es with
    | nil => intro cur p hp; rw [stream_children_nil] at hp; simp at hp
    | cons e rest => exfalso; simp [List.cons.sizeOf_spec] at h
  | succ n ih =>
    intro es h cur p hp
    cases es with
    | nil => rw [stream_children_nil] at hp; simp at hp
    | cons e rest =>
      have hrest : sizeOf rest ≤ n := by
        simp only [List.cons.sizeOf_spec] at h
        have : 0 < sizeOf e := by cases e <;> simp
        omega
      cases e with
      | file fn fsz =>
        rw [stream_children_file] at hp
        exact ih rest hrest cur p hp
      | dir name readable cs =>
        have hcs : sizeOf cs ≤ n := by
          simp only [List.cons.sizeOf_spec, FsEntry.dir.sizeOf_spec] at h
          omega
        by_cases hig : ign.should_ignore name = true
        · rw [stream_children_ignored pat ign cur name readable cs rest hig] at hp
          exact ih rest hrest cur p hp
        · have hig' : ign.should_ignore name = false := by
            simpa using hig
          by_cases hnp : name = pat
          · rw [stream_children_matched pat ign cur name readable cs rest hig' hnp] at hp
            rcases List.mem_cons.mp hp with hp2 | hp2
            · subst hnp
              exact ⟨[], by simpa using hp2, by simp, by simp, hig'⟩
            · exact ih rest hrest cur p hp2
          · cases readable with
            | false =>
              rw [stream_children_unreadable pat ign cur name cs rest hig' hnp] at hp
              simp at hp
            | true =>
              rw [stream_children_descend pat ign cur name cs rest hig' hnp] at hp
              have sub : ∀ p', p' ∈ (stream_children pat ign (cur ++ [name]) cs).1 →
                  ∃ q, p' = cur ++ q ++ [pat] ∧ (∀ c ∈ q, c ≠ pat) ∧
                    (∀ c ∈ q, ign.should_ignore c = false) ∧
                    ign.should_ignore pat = false := by
                intro p' hp'
                obtain ⟨q', hq1, hq2, hq3, hq4⟩ := ih cs hcs (cur ++ [name]) p' hp'
                refine ⟨name :: q', ?_, ?_, ?_, hq4⟩
                · simpa [List.append_assoc] using hq1
                · intro c hc
                  rcases List.mem_cons.mp hc with hc | hc
                  · subst hc; exact hnp
                  · exact hq2 c hc
                · intro c hc
                  rcases List.mem_cons.mp hc with hc | hc
                  · subst hc; exact hig'
                  · exact hq3 c hc
              rcases hrec : stream_children pat ign (cur ++ [name]) cs with ⟨ms1, ok1⟩
              rw [hrec] at hp
              cases ok1 with
              | true =>
                simp only [List.mem_append] at hp
                rcases hp with hp | hp
                · exact sub p (by rw [hrec]; exact hp)
                · exact ih rest hrest cur p hp
              | false =>
                simp only at hp
                exact sub p (by rw [hrec]; exact hp)

theorem no_nested_emission (pat : String) (ign : IgnorePatterns) (es : List FsEntry)
    (p1 p2 : List String)
    (h1 : p1 ∈ (stream_children pat ign [] es).1)
    (h2 : p2 ∈ (stream_children pat ign [] es).1)
    (hpre : p1 <+: p2) : p1 = p2 := by
  obtain ⟨q1, hq1, _, _, _⟩ :=
    mem_stream_children pat ign (sizeOf es) es (Nat.le_refl _) [] p1 h1
  obtain ⟨q2, hq2, hq2ne, _, _⟩ :=
    mem_stream_children pat ign (sizeOf es) es (Nat.le_refl _) [] p2 h2
  simp only [List.nil_append] at hq1 hq2
  by_contra hne
  obtain ⟨t, ht⟩ := hpre
  have htne : t ≠ [] := by
    intro h
    exact hne (by simpa [h] using ht)
  have hlen2 : p2.length = q2.length + 1 := by simp [hq2]
  have hlen : p1.length < p2.length := by
    rw [← ht]
    cases t with
    | nil => exact absurd rfl htne
    | cons a t => simp
  have hp1len : p1.length ≤ q2.length := by omega
  have htake : p2.take p1.length = p1 := by
    rw [← ht]; exact List.take_left p1 t
  rw [hq2, List.take_append_of_le_length hp1len] at htake
  have hmemp1 : pat ∈ p1 := by simp [hq1]
  rw [← htake] at hmemp1
  exact hq2ne pat (List.mem_of_mem_take hmemp1) rfl

/-- A `DirectoryFound` message of the streaming entry point comes from the
walk over the children of the root directory. -/
theorem found_in_stream (root : FsEntry) (pat : String) (ign : IgnorePatterns)
    (p : List String)
    (h : DiscoveryMessage.directoryFound p ∈ (stream_directories_with_ignore root pat ign).1) :
    ∃ name readable children, root = .dir name readable children ∧
      p ∈ (stream_children pat ign [] children).1 := by
  cases root with
  | file n sz =>
    exfalso
    unfold stream_directories_with_ignore at h
    by_cases hpe : pat.isEmpty <;> simp [hpe] at h
  | dir name readable children =>
    refine ⟨name, readable, children, rfl, ?_⟩
    unfold stream_directories_with_ignore at h
    by_cases hpe : pat.isEmpty
    · simp [hpe] at h
    · simp only [Bool.not_eq_true] at hpe
      rw [if_neg (by simp [hpe])] at h
      cases readable with
      | false => simp at h
      | true =>
        simp only at h
        rcases hrec : stream_children pat ign [] children with ⟨founds, ok⟩
        rw [hrec] at h
        cases ok with
        | true => simpa using h
        | false => simpa using h

/-- C1: nested-match suppression.  First conjunct: among the paths the
streaming discoverer emits, none is a strict ancestor of another (a prefix
among emitted paths is the path itself).  Second conjunct: when the walk
reaches a directory whose basename equals the pattern (and which is not
ignored — the ignore check runs first in the source), it emits `Found` for
exactly that directory and does not descend into it: the children `cs` do
not occur in the result. -/
theorem nested_match_suppression (root : FsEntry) (pattern : String) (ign : IgnorePatterns) :
    (∀ p1 p2 : List String,
        DiscoveryMessage.directoryFound p1 ∈ (stream_directories_with_ignore root pattern ign).1 →
        DiscoveryMessage.directoryFound p2 ∈ (stream_directories_with_ignore root pattern ign).1 →
        p1 <+: p2 → p1 = p2) ∧
    (∀ (cur : List String) (r : Bool) (cs rest : List FsEntry),
        ign.should_ignore pattern = false →
        stream_children pattern ign cur (.dir pattern r cs :: rest) =
          ((cur ++ [pattern]) :: (stream_children pattern ign cur rest).1,
            (stream_children pattern ign cur rest).2)) := by
  constructor
  · intro p1 p2 h1 h2 hpre
    obtain ⟨name, readable, children, hroot, hm1⟩ := found_in_stream root pattern ign p1 h1
    obtain ⟨name2, readable2, children2, hroot2, hm2⟩ := found_in_stream root pattern ign p2 h2
    rw [hroot] at hroot2
    cases hroot2
    exact no_nested_emission pattern ign children p1 p2 hm1 hm2 hpre
  · intro cur r cs rest hig
    exact stream_children_matched pattern ign cur pattern r cs rest hig rfl

/-- Witness for C1 on the E2 tree `root/node_modules/node_modules`: the
stream is exactly one `Found` plus `Complete`, and the theorem applies to
the emitted path. -/
theorem nested_match_suppression_witness :
    (stream_directories_with_ignore
        (.dir "root" true [.dir "node_modules" true [.dir "node_modules" true []]])
        "node_modules" ⟨[]⟩).1 =
      [.directoryFound ["node_modules"], .discoveryComplete] ∧
    (["node_modules"] : List String) = ["node_modules"] := by
  have hne : "node_modules".isEmpty = false := by decide
  constructor
  · simp [stream_directories_with_ignore, stream_children, IgnorePatterns.should_ignore, hne]
  · exact (nested_match_suppression
      (.dir "root" true [.dir "node_modules" true [.dir "node_modules" true []]])
      "node_modules" ⟨[]⟩).1 ["node_modules"] ["node_modules"]
      (by simp [stream_directories_with_ignore, stream_children,
        IgnorePatterns.should_ignore, hne])
      (by simp [stream_directories_with_ignore, stream_children,
        IgnorePatterns.should_ignore, hne])
      ⟨[], by simp⟩

/-- C7: ignore coverage.  `matches(B)` equals "some regex in S matches B"
(first conjunct), the empty set answers false (without iterating — the
source returns before touching the iterator; second conjunct), and during
discovery a directory whose basename is ignored is never descended into
(the walk result does not depend on its children; third conjunct) and
never emitted — no component of any emitted path is ignored, so neither
the directory itself nor anything below it appears in the stream (fourth
conjunct). -/
theorem ignore_coverage (ign : IgnorePatterns) (b : String) :
    (ign.should_ignore b = ign.patterns.any (fun pattern => pattern b)) ∧
    ((⟨[]⟩ : IgnorePatterns).should_ignore b = false) ∧
    (∀ (pat : String) (cur : List String) (name : String) (readable : Bool)
        (cs rest : List FsEntry), ign.should_ignore name = true →
        stream_children pat ign cur (.dir name readable cs :: rest) =
          stream_children pat ign cur rest) ∧
    (∀ (root : FsEntry) (pat : String) (p : List String),
        DiscoveryMessage.directoryFound p ∈ (stream_directories_with_ignore root pat ign).1 →
        ∀ c ∈ p, ign.should_ignore c = false) := by
  refine ⟨?_, by simp [IgnorePatterns.should_ignore], ?_, ?_⟩
  · unfold IgnorePatterns.should_ignore
    split
    · rename_i he
      rw [List.isEmpty_iff] at he
      simp [he]
    · rfl
  · intro pat cur name readable cs rest hig
    exact stream_children_ignored pat ign cur name readable cs rest hig
  · intro root pat p hm c hc
    obtain ⟨name, readable, children, hroot, hmem⟩ := found_in_stream root pat ign p hm
    obtain ⟨q, hq1, _, hq3, hq4⟩ :=
      mem_stream_children pat ign (sizeOf children) children (Nat.le_refl _) [] p hmem
    simp only [List.nil_append] at hq1
    subst hq1
    rcases List.mem_append.mp hc with hc | hc
    · exact hq3 c hc
    · rw [List.mem_singleton.mp hc]
      exact hq4

/-- Witness for C7 on the E3 scenario: basenames `cache`, `temp_dir`,
`other`, pattern `other`, a two-pattern ignore set that matches `cache`
and `temp_dir`.  The stream holds exactly `Found root/other` plus
`Complete`, and the theorem instance concludes that no component of the
emitted path is ignored. -/
theorem ignore_coverage_witness :
    (stream_directories_with_ignore
        (.dir "root" true [.dir "cache" true [], .dir "temp_dir" true [], .dir "other" true []])
        "other"
        ⟨[fun s => s == "cache", fun s => s == "temp_dir"]⟩).1 =
      [.directoryFound ["other"], .discoveryComplete] ∧
    (⟨[fun s => s == "cache", fun s => s == "temp_dir"]⟩ :
        IgnorePatterns).should_ignore "other" = false := by
  have hne : "other".isEmpty = false := by decide
  have h1 : (stream_directories_with_ignore
      (.dir "root" true [.dir "cache" true [], .dir "temp_dir" true [], .dir "other" true []])
      "other"
      ⟨[fun s => s == "cache", fun s => s == "temp_dir"]⟩).1 =
      [.directoryFound ["other"], .discoveryComplete] := by
    simp only [stream_directories_with_ignore, hne, Bool.false_eq_true, if_false]
    rw [stream_children_ignored _ _ _ _ _ _ _ (by decide),
      stream_children_ignored _ _ _ _ _ _ _ (by decide),
      stream_children_matched _ _ _ _ _ _ _ (by decide) rfl,
      stream_children_nil]
    simp
  refine ⟨h1, ?_⟩
  exact (ignore_coverage
      ⟨[fun s => s == "cache", fun s => s == "temp_dir"]⟩ "other").2.2.2
      (.dir "root" true [.dir "cache" true [], .dir "temp_dir" true [], .dir "other" true []])
      "other" ["other"] (by rw [h1]; simp) "other" (by simp)

/-- Counterexample to C2: in `root/{a,node_modules}` with subtree `a`
unreadable, the walk aborts: nothing is emitted — not the sibling match
`root/node_modules`, nor any terminal message — and the function returns
`Err`.  Without the unreadable sibling the very same match is emitted
followed by `Complete`.  A root-level error likewise produces no
`DiscoveryError` message on the channel, only the `Err` return. -/
theorem discovery_subtree_error_cex :
    stream_directories_with_ignore
        (.dir "root" true [.dir "a" false [], .dir "node_modules" true []])
        "node_modules" ⟨[]⟩ = ([], false) ∧
    stream_directories_with_ignore
        (.dir "root" true [.dir "node_modules" true []]) "node_modules" ⟨[]⟩ =
      ([.directoryFound ["node_modules"], .discoveryComplete], true) ∧
    stream_directories_with_ignore
        (.dir "root" false [.dir "node_modules" true []]) "node_modules" ⟨[]⟩ =
      ([], false) := by
  have hne : "node_modules".isEmpty = false := by decide
  refine ⟨?_, ?_, ?_⟩ <;>
    simp [stream_directories_with_ignore, stream_children, IgnorePatterns.should_ignore, hne]

/-- C2 as amended: a filesystem error on a subtree below the root is not
skipped — it aborts the walk.  First conjunct: reaching an unreadable,
non-ignored, non-matching directory yields `([], false)`: no further
sibling is emitted and the error propagates.  Second conjunct: whenever
the streaming entry point returns `Err`, the channel carries no terminal
message at all — every message sent is a `DirectoryFound` and
`DiscoveryComplete` is absent (errors, root-level ones included, surface
only in the return value; no `DiscoveryError` is ever sent by this
function). -/
theorem discovery_subtree_error_aborts (pat : String) (ign : IgnorePatterns)
    (cur : List String) (name : String) (cs rest : List FsEntry)
    (hig : ign.should_ignore name = false) (hnp : name ≠ pat) :
    stream_children pat ign cur (.dir name false cs :: rest) = ([], false) ∧
    (∀ root : FsEntry, (stream_directories_with_ignore root pat ign).2 = false →
      DiscoveryMessage.discoveryComplete ∉ (stream_directories_with_ignore root pat ign).1 ∧
      ∀ m ∈ (stream_directories_with_ignore root pat ign).1,
        ∃ p, m = DiscoveryMessage.directoryFound p) := by
  constructor
  · exact stream_children_unreadable pat ign cur name cs rest hig hnp
  · intro root hfail
    by_cases hpe : pat.isEmpty = true
    · simp [stream_directories_with_ignore, hpe]
    · simp only [Bool.not_eq_true] at hpe
      cases root with
      | file n sz => simp [stream_directories_with_ignore, hpe]
      | dir rn readable children =>
        cases readable with
        | false => simp [stream_directories_with_ignore, hpe]
        | true =>
          rcases hrec : stream_children pat ign [] children with ⟨founds, ok⟩
          cases ok with
          | true =>
            exfalso
            simp [stream_directories_with_ignore, hpe, hrec] at hfail
          | false =>
            refine ⟨?_, ?_⟩
            · simp [stream_directories_with_ignore, hpe, hrec]
            · intro m hm
              simp only [stream_directories_with_ignore, hpe, Bool.false_eq_true,
                if_false, hrec] at hm
              obtain ⟨q, _, hq⟩ := List.mem_map.mp hm
              exact ⟨q, hq.symm⟩

/-- Witness for C2 (amended) at the counterexample tree: the abort
equation applied at subtree `a` with pattern `node_modules`. -/
theorem discovery_subtree_error_aborts_witness :
    stream_children "node_modules" ⟨[]⟩ []
        [.dir "a" false [], .dir "node_modules" true []] = ([], false) :=
  (discovery_subtree_error_aborts "node_modules" ⟨[]⟩ [] "a"
    [] [.dir "node_modules" true []] (by decide) (by decide)).1

/-! ### The size calculator (claim C3) -/

/-- The sequential size walk succeeds exactly on fully readable forests,
and then computes the full file-size sum; any unreadable directory makes
it fail. -/
theorem calc_dir_children_spec :
    ∀ (n : Nat) (es : List FsEntry), sizeOf es ≤ n →
      (all_readable es = true → calc_dir_children es = .ok (sum_file_sizes es)) ∧
      (all_readable es = false → calc_dir_children es = .error "read_dir failed") := by
  intro n
  induction n with
  | zero =>
    intro es h
    cases es with
    | nil => exact ⟨fun _ => by simp [calc_dir_children, sum_file_sizes], by simp [all_readable]⟩
    | cons e rest => exfalso; simp [List.cons.sizeOf_spec] at h
  | succ n ih =>
    intro es h
    cases es with
    | nil => exact ⟨fun _ => by simp [calc_dir_children, sum_file_sizes], by simp [all_readable]⟩
    | cons e rest =>
      have hrest : sizeOf rest ≤ n := by
        simp only [List.cons.sizeOf_spec] at h
        have : 0 < sizeOf e := by cases e <;> simp
        omega
      cases e with
      | file fn fsz =>
        constructor
        · intro hr
          rw [all_readable] at hr
          rw [calc_dir_children, (ih rest hrest).1 hr, sum_file_sizes]
          rfl
        · intro hr
          rw [all_readable] at hr
          rw [calc_dir_children, (ih rest hrest).2 hr]
          rfl
      | dir name readable cs =>
        have hcs : sizeOf cs ≤ n := by
          simp only [List.cons.sizeOf_spec, FsEntry.dir.sizeOf_spec] at h
          omega
        constructor
        · intro hr
          rw [all_readable] at hr
          simp only [Bool.and_eq_true] at hr
          obtain ⟨⟨hr1, hr2⟩, hr3⟩ := hr
          subst hr1
          rw [calc_dir_children, if_pos rfl, (ih cs hcs).1 hr2, (ih rest hrest).1 hr3,
            sum_file_sizes]
          rfl
        · intro hr
          cases readable with
          | false => rw [calc_dir_children]; rfl
          | true =>
            rw [all_readable] at hr
            simp only [Bool.true_and] at hr
            rw [calc_dir_children, if_pos rfl]
            rcases hacs : all_readable cs with _ | _
            · rw [(ih cs hcs).2 hacs]; rfl
            · rw [(ih cs hcs).1 hacs]
              rw [hacs] at hr
              simp only [Bool.true_and] at hr
              rw [(ih rest hrest).2 hr]
              rfl

/-- Counterexample to C3: the directory `m` holds a readable 5-byte file
and an unreadable subdirectory `s`.  The readable part of the subtree sums
to 5 (the spec therefore promises a `Completed` partial total of 5), but
`calculate_directory_size` propagates the `read_dir` failure and returns
`Err`; the `unwrap_or(0)` caller then records size 0 — the entire total is
dropped, not just the unreadable part — with status `Completed`. -/
theorem size_calc_unreadable_cex :
    calculate_directory_size (.dir "m" true [.file "a" 5, .dir "s" false []]) =
      .error "read_dir failed" ∧
    readable_partial_size [.file "a" 5, .dir "s" false []] = 5 ∧
    found_entry_size_status (.dir "m" true [.file "a" 5, .dir "s" false []]) =
      (0, .completed) ∧
    (0 : Nat) ≠ 5 := by
  refine ⟨?_, ?_, ?_, by decide⟩
  · simp [calculate_directory_size, calc_dir_children]
  · simp [readable_partial_size]
  · simp [found_entry_size_status, calculate_directory_size, calc_dir_children]

/-- C3 as amended: an unreadable subtree does not contribute 0 while the
rest is summed — it fails the whole sequential computation.  On a readable
directory whose subtree is fully readable the walk returns the complete
file-size sum, and the `unwrap_or(0)` caller records it with status
`Completed`; as soon as the directory itself or anything below it is
unreadable the walk returns `Err` and the caller records size 0 (not the
partial total) with status `Completed`. -/
theorem size_calc_unreadable_fails (name : String) (readable : Bool) (cs : List FsEntry) :
    (readable = true → all_readable cs = true →
      calculate_directory_size (.dir name readable cs) = .ok (sum_file_sizes cs) ∧
      found_entry_size_status (.dir name readable cs) = (sum_file_sizes cs, .completed)) ∧
    (readable = false ∨ all_readable cs = false →
      calculate_directory_size (.dir name readable cs) = .error "read_dir failed" ∧
      found_entry_size_status (.dir name readable cs) = (0, .completed)) := by
  constructor
  · intro hr hcs
    subst hr
    have h1 : calculate_directory_size (.dir name true cs) = .ok (sum_file_sizes cs) := by
      rw [calculate_directory_size, if_pos rfl]
      exact (calc_dir_children_spec (sizeOf cs) cs (Nat.le_refl _)).1 hcs
    exact ⟨h1, by rw [found_entry_size_status, h1]⟩
  · intro hr
    have h1 : calculate_directory_size (.dir name readable cs) = .error "read_dir failed" := by
      rcases hr with hr | hr
      · subst hr; rw [calculate_directory_size]; rfl
      · cases readable with
        | false => rw [calculate_directory_size]; rfl
        | true =>
          rw [calculate_directory_size, if_pos rfl]
          exact (calc_dir_children_spec (sizeOf cs) cs (Nat.le_refl _)).2 hr
    exact ⟨h1, by rw [found_entry_size_status, h1]⟩

/-- Witness for C3 (amended) at the counterexample directory: the failure
branch of the theorem applied to `m`. -/
theorem size_calc_unreadable_fails_witness :
    calculate_directory_size (.dir "m" true [.file "a" 5, .dir "s" false []]) =
      .error "read_dir failed" ∧
    found_entry_size_status (.dir "m" true [.file "a" 5, .dir "s" false []]) =
      (0, .completed) :=
  (size_calc_unreadable_fails "m" true [.file "a" 5, .dir "s" false []]).2
    (Or.inr (by simp [all_readable]))

/-! ### Pagination and cursor bounds (claims C4, C9) -/

/-- A plain completed test entry. -/
def test_entry : DirectoryInfo :=
  { path := "d"
    size := 0
    formatted_size := "0 B"
    last_modified := none
    formatted_last_modified := "Unknown"
    selected := false
    deletion_status := .normal
    calculation_status := .completed }

/-- An app over 25 identical entries (the E7 scenario size). -/
def app25 : App := App.new_with_ignore (List.replicate 25 test_entry) "node_modules" "."

/-- Counterexample to C4: with 25 entries and 20 items per page, move to
page 1 (`next_page`, cursor 20), then press Home (`select_first`).  The
cursor returns to 0 but `current_page` stays 1, so
`current_page = selected / items_per_page` fails after this navigation
command. -/
theorem pagination_home_cex :
    ((app25.next_page 20).select_first).current_page = 1 ∧
    ((app25.next_page 20).select_first).selected = 0 ∧
    ((app25.next_page 20).select_first).current_page ≠
      ((app25.next_page 20).select_first).selected / 20 := by
  refine ⟨by decide, by decide, by decide⟩

/-- After `update_selection_for_pagination` the page equals
`selected / items_per_page`. -/
theorem update_selection_restores (s : App) (ipp : Nat) :
    (s.update_selection_for_pagination ipp).current_page =
      (s.update_selection_for_pagination ipp).selected / ipp := by
  unfold App.update_selection_for_pagination
  split <;> rfl

/-- C4 as amended: `current_page = selected / items_per_page` holds after
`next` and `previous` on a non-empty list unconditionally, and is
preserved by `next_page`, `previous_page` and `go_to_page`; it does not
survive Home and End — `select_first` and `select_last` change only the
cursor and leave `current_page` stale (last conjunct), so after them the
equality can fail. -/
theorem pagination_invariant_nav (s : App) (ipp : Nat) (hipp : 0 < ipp) :
    (s.directories ≠ [] →
      (s.next ipp).current_page = (s.next ipp).selected / ipp) ∧
    (s.directories ≠ [] →
      (s.previous ipp).current_page = (s.previous ipp).selected / ipp) ∧
    (s.current_page = s.selected / ipp →
      (s.next_page ipp).current_page = (s.next_page ipp).selected / ipp) ∧
    (s.current_page = s.selected / ipp →
      (s.previous_page ipp).current_page = (s.previous_page ipp).selected / ipp) ∧
    (∀ p, s.current_page = s.selected / ipp →
      (s.go_to_page p ipp).current_page = (s.go_to_page p ipp).selected / ipp) ∧
    (s.select_first.current_page = s.current_page ∧
      s.select_last.current_page = s.current_page) := by
  refine ⟨?_, ?_, ?_, ?_, ?_, ?_, ?_⟩
  · intro hne
    unfold App.next
    rw [if_neg (by simpa using hne)]
    exact update_selection_restores _ ipp
  · intro hne
    unfold App.previous
    rw [if_neg (by simpa using hne)]
    exact update_selection_restores _ ipp
  · intro hpre
    unfold App.next_page
    split
    · simp [Nat.mul_div_cancel _ hipp]
    · exact hpre
  · intro hpre
    unfold App.previous_page
    split
    · simp [Nat.mul_div_cancel _ hipp]
    · exact hpre
  · intro p hpre
    unfold App.go_to_page
    split
    · simp [Nat.mul_div_cancel _ hipp]
    · exact hpre
  · unfold App.select_first
    split <;> rfl
  · unfold App.select_last
    split <;> rfl

/-- Witness for C4 (amended): on the 25-entry app, `next` at 20 items per
page restores the equality. -/
theorem pagination_invariant_nav_witness :
    (app25.next 20).current_page = (app25.next 20).selected / 20 :=
  (pagination_invariant_nav app25 20 (by decide)).1 (by decide)

/-- Counterexample to C9: starting from 25 entries, End (cursor 24), then
`previous` while one item fits per page (cursor 23, page 23), then
`previous_page` after the terminal grew to 20 items per page: the code
sets `selected := 22 * 20 = 440` without clamping, far beyond the 25
entries — the cursor-bounds invariant is not preserved when
`items_per_page` differs between operations. -/
theorem cursor_bounds_cex :
    (((app25.select_last).previous 1).previous_page 20).selected = 440 ∧
    (((app25.select_last).previous 1).previous_page 20).directories.length = 25 ∧
    ¬ ((((app25.select_last).previous 1).previous_page 20).selected <
        (((app25.select_last).previous 1).previous_page 20).directories.length) := by
  refine ⟨by decide, by decide, by decide⟩

/-- One mutation of the `App` state, with the `items_per_page` each
operation receives recorded in the operation itself (the render loop
passes the current per-frame value). -/
inductive AppOp where
  | next (items_per_page : Nat)
  | previous (items_per_page : Nat)
  | selectFirst
  | selectLast
  | nextPage (items_per_page : Nat)
  | previousPage (items_per_page : Nat)
  | goToPage (page items_per_page : Nat)
  | updateSelection (items_per_page : Nat)
  | toggleSelectionMode
  | toggleCurrentSelection
  | selectAll
  | deselectAll
  | selectCurrent
  | deselectCurrent
  | addDiscovered (p : String)
  | processBatch
  | processRemaining
  | setStatus (st : DiscoveryStatus)
  | processDeletions (now : Nat) (ms : List DeletionMessage)

/-- The `items_per_page` argument an operation uses, if any. -/
def AppOp.ippOf : AppOp → Option Nat
  | .next i => some i
  | .previous i => some i
  | .nextPage i => some i
  | .previousPage i => some i
  | .goToPage _ i => some i
  | .updateSelection i => some i
  | _ => none

/-- Interpret one operation on the state. -/
def applyAppOp (parentFn : String → Option String) (lmFn : String → Option Nat)
    (fmtFn : Nat → String) (s : App) : AppOp → App
  | .next i => s.next i
  | .previous i => s.previous i
  | .selectFirst => s.select_first
  | .selectLast => s.select_last
  | .nextPage i => s.next_page i
  | .previousPage i => s.previous_page i
  | .goToPage p i => s.go_to_page p i
  | .updateSelection i => s.update_selection_for_pagination i
  | .toggleSelectionMode => s.toggle_selection_mode
  | .toggleCurrentSelection => s.toggle_current_selection
  | .selectAll => s.select_all
  | .deselectAll => s.deselect_all
  | .selectCurrent => s.select_current
  | .deselectCurrent => s.deselect_current
  | .addDiscovered p => s.add_discovered_directory parentFn lmFn fmtFn p
  | .processBatch => s.process_pending_batch parentFn lmFn fmtFn
  | .processRemaining => s.process_remaining_pending parentFn lmFn fmtFn
  | .setStatus st => s.set_discovery_status parentFn lmFn fmtFn st
  | .processDeletions now ms => s.process_deletion_messages now ms

/-- The cursor-and-page bounds: on an empty list both indices are 0; on a
non-empty list the cursor is in range and the page start is in range for
the given `items_per_page`. -/
def cursor_page_inv (ipp : Nat) (s : App) : Prop :=
  (s.directories = [] → s.selected = 0 ∧ s.current_page = 0) ∧
  (s.directories ≠ [] → s.selected < s.directories.length ∧
    s.current_page * ipp < s.directories.length)

/-- Processing one deletion result never changes the list length, the
cursor, the page, the pending buffer, the batch size or the discovered
counter. -/
theorem process_deletion_result_fields (now : Nat) (s : App) (r : DeletionResult) :
    (App.process_deletion_result now s r).directories.length = s.directories.length ∧
    (App.process_deletion_result now s r).selected = s.selected ∧
    (App.process_deletion_result now s r).current_page = s.current_page ∧
    (App.process_deletion_result now s r).pending_directories = s.pending_directories ∧
    (App.process_deletion_result now s r).batch_size = s.batch_size ∧
    (App.process_deletion_result now s r).total_discovered = s.total_discovered := by
  unfold App.process_deletion_result
  split
  · split <;> simp [List.length_modify]
  · simp

/-- A fold preserves any property each step preserves. -/
theorem foldl_preserves_fields {α : Type} (f : App → α → App)
    (P : App → App → Prop)
    (hrefl : ∀ s, P s s)
    (htrans : ∀ a b c, P a b → P b c → P a c)
    (hf : ∀ s a, P s (f s a)) :
    ∀ (l : List α) (s : App), P s (l.foldl f s) := by
  intro l
  induction l with
  | nil => intro s; exact hrefl s
  | cons a l ih => intro s; exact htrans _ _ _ (hf s a) (ih (f s a))

/-- The navigation-relevant fields preserved by deletion processing. -/
def same_nav_fields (s s' : App) : Prop :=
  s'.directories.length = s.directories.length ∧
  s'.selected = s.selected ∧
  s'.current_page = s.current_page ∧
  s'.pending_directories = s.pending_directories ∧
  s'.batch_size = s.batch_size ∧
  s'.total_discovered = s.total_discovered

theorem same_nav_fields_refl (s : App) : same_nav_fields s s := by
  simp [same_nav_fields]

theorem same_nav_fields_trans (a b c : App) :
    same_nav_fields a b → same_nav_fields b c → same_nav_fields a c := by
  intro h1 h2
  unfold same_nav_fields at *
  obtain ⟨a1, a2, a3, a4, a5, a6⟩ := h1
  obtain ⟨b1, b2, b3, b4, b5, b6⟩ := h2
  exact ⟨b1.trans a1, b2.trans a2, b3.trans a3, b4.trans a4, b5.trans a5, b6.trans a6⟩


theorem process_deletion_message_nav (now : Nat) (s : App) (m : DeletionMessage) :
    same_nav_fields s (App.process_deletion_message now s m) := by
  cases m with
  | startSingle index path =>
    simp only [App.process_deletion_message]
    split <;> simp [same_nav_fields, List.length_modify]
  | startMultiple indices paths =>
    simp only [App.process_deletion_message]
    refine foldl_preserves_fields _ same_nav_fields same_nav_fields_refl
      same_nav_fields_trans ?_ indices s
    intro s' i
    split <;> simp [same_nav_fields, List.length_modify]
  | progress index status =>
    simp only [App.process_deletion_message]
    split <;> simp [same_nav_fields, List.length_modify]
  | complete results =>
    simp only [App.process_deletion_message]
    have h1 : same_nav_fields s (results.foldl (App.process_deletion_result now) s) := by
      refine foldl_preserves_fields _ same_nav_fields same_nav_fields_refl
        same_nav_fields_trans ?_ results s
      intro s' r
      have := process_deletion_result_fields now s' r
      exact ⟨this.1, this.2.1, this.2.2.1, this.2.2.2.1, this.2.2.2.2.1, this.2.2.2.2.2⟩
    have h2 : same_nav_fields (results.foldl (App.process_deletion_result now) s)
        { results.foldl (App.process_deletion_result now) s with deletion_progress := none } := by
      simp [same_nav_fields]
    exact same_nav_fields_trans _ _ _ h1 h2

theorem process_deletion_messages_nav (now : Nat) (s : App) (ms : List DeletionMessage) :
    same_nav_fields s (App.process_deletion_messages now s ms) :=
  foldl_preserves_fields _ same_nav_fields same_nav_fields_refl same_nav_fields_trans
    (fun s' m => process_deletion_message_nav now s' m) ms s

/-- `process_pending_batch` only appends entries; cursor, page and batch
size are untouched, the pending buffer loses exactly the promoted batch,
and the discovered counter is unchanged. -/
theorem process_pending_batch_shape (parentFn : String → Option String)
    (lmFn : String → Option Nat) (fmtFn : Nat → String) (s : App) :
    (s.process_pending_batch parentFn lmFn fmtFn).directories = s.directories ++
      ((s.pending_directories.take (min s.batch_size s.pending_directories.length)).map
        (mk_discovered_entry parentFn lmFn fmtFn)) ∧
    (s.process_pending_batch parentFn lmFn fmtFn).pending_directories =
      s.pending_directories.drop (min s.batch_size s.pending_directories.length) ∧
    (s.process_pending_batch parentFn lmFn fmtFn).selected = s.selected ∧
    (s.process_pending_batch parentFn lmFn fmtFn).current_page = s.current_page ∧
    (s.process_pending_batch parentFn lmFn fmtFn).batch_size = s.batch_size ∧
    (s.process_pending_batch parentFn lmFn fmtFn).total_discovered = s.total_discovered := by
  unfold App.process_pending_batch
  split
  · rename_i he
    rw [List.isEmpty_iff] at he
    simp [he]
  · simp

/-- `process_remaining_pending` only appends entries, keeps cursor, page,
batch size and counter, and conserves `directories.length +
pending.length`. -/
theorem process_remaining_pending_shape (parentFn : String → Option String)
    (lmFn : String → Option Nat) (fmtFn : Nat → String) :
    ∀ (n : Nat) (s : App), s.pending_directories.length ≤ n →
      ∃ add, (s.process_remaining_pending parentFn lmFn fmtFn).directories =
          s.directories ++ add ∧
        (s.process_remaining_pending parentFn lmFn fmtFn).selected = s.selected ∧
        (s.process_remaining_pending parentFn lmFn fmtFn).current_page = s.current_page ∧
        (s.process_remaining_pending parentFn lmFn fmtFn).batch_size = s.batch_size ∧
        (s.process_remaining_pending parentFn lmFn fmtFn).total_discovered =
          s.total_discovered ∧
        (s.process_remaining_pending parentFn lmFn fmtFn).directories.length +
            (s.process_remaining_pending parentFn lmFn fmtFn).pending_directories.length =
          s.directories.length + s.pending_directories.length := by
  intro n
  induction n with
  | zero =>
    intro s h
    have he : s.pending_directories = [] := by
      cases hp : s.pending_directories with
      | nil => rfl
      | cons a l => rw [hp] at h; simp at h
    unfold App.process_remaining_pending
    rw [if_pos (by simp [he])]
    exact ⟨[], by simp⟩
  | succ n ih =>
    intro s h
    unfold App.process_remaining_pending
    by_cases he : s.pending_directories.isEmpty
    · rw [if_pos he]
      exact ⟨[], by simp⟩
    · rw [if_neg he]
      by_cases hb : s.batch_size = 0
      · rw [if_pos hb]
        exact ⟨[], by simp⟩
      · rw [if_neg hb]
        have hne : s.pending_directories ≠ [] := by simpa using he
        have hlen : 0 < s.pending_directories.length := List.length_pos.mpr hne
        have hbs : 0 < s.batch_size := Nat.pos_of_ne_zero hb
        obtain ⟨hd, hp, hsel, hcp, hbsz, htd⟩ :=
          process_pending_batch_shape parentFn lmFn fmtFn s
        set s' := s.process_pending_batch parentFn lmFn fmtFn with hs'
        have hp'len : s'.pending_directories.length ≤ n := by
          rw [hp, List.length_drop]
          omega
        obtain ⟨add, ha1, ha2, ha3, ha4, ha5, ha6⟩ := ih s' hp'len
        refine ⟨(s.pending_directories.take
            (min s.batch_size s.pending_directories.length)).map
            (mk_discovered_entry parentFn lmFn fmtFn) ++ add, ?_, ?_, ?_, ?_, ?_, ?_⟩
        · rw [ha1, hd, List.append_assoc]
        · rw [ha2, hsel]
        · rw [ha3, hcp]
        · rw [ha4, hbsz]
        · rw [ha5, htd]
        · rw [ha6, hd, hp]
          simp only [List.length_append, List.length_map, List.length_take, List.length_drop]
          omega

/-- With a positive batch size, `process_remaining_pending` promotes the
whole pending buffer, in order, to the entry list. -/
theorem process_remaining_pending_drain (parentFn : String → Option String)
    (lmFn : String → Option Nat) (fmtFn : Nat → String) :
    ∀ (n : Nat) (s : App), s.pending_directories.length ≤ n → 0 < s.batch_size →
      (s.process_remaining_pending parentFn lmFn fmtFn).pending_directories = [] ∧
      (s.process_remaining_pending parentFn lmFn fmtFn).directories =
        s.directories ++
          s.pending_directories.map (mk_discovered_entry parentFn lmFn fmtFn) := by
  intro n
  induction n with
  | zero =>
    intro s h hb
    have he : s.pending_directories = [] := by
      cases hp : s.pending_directories with
      | nil => rfl
      | cons a l => rw [hp] at h; simp at h
    unfold App.process_remaining_pending
    rw [if_pos (by simp [he])]
    simp [he]
  | succ n ih =>
    intro s h hb
    unfold App.process_remaining_pending
    by_cases he : s.pending_directories.isEmpty
    · rw [if_pos he]
      rw [List.isEmpty_iff] at he
      simp [he]
    · rw [if_neg he, if_neg (Nat.pos_iff_ne_zero.mp hb)]
      have hne : s.pending_directories ≠ [] := by simpa using he
      have hlen : 0 < s.pending_directories.length := List.length_pos.mpr hne
      obtain ⟨hd, hp, hsel, hcp, hbsz, htd⟩ :=
        process_pending_batch_shape parentFn lmFn fmtFn s
      set s' := s.process_pending_batch parentFn lmFn fmtFn with hs'
      have hp'len : s'.pending_directories.length ≤ n := by
        rw [hp, List.length_drop]
        omega
      have hb' : 0 < s'.batch_size := by rw [hbsz]; exact hb
      obtain ⟨ha1, ha2⟩ := ih s' hp'len hb'
      refine ⟨ha1, ?_⟩
      rw [ha2, hd, hp, List.append_assoc, ← List.map_append, List.take_append_drop]

/-- The bounds survive any mutation that keeps the cursor, the page and
the number of entries. -/
theorem cursor_page_inv_of_same (ipp : Nat) (s s' : App)
    (hlen : s'.directories.length = s.directories.length)
    (hsel : s'.selected = s.selected) (hcp : s'.current_page = s.current_page)
    (hs : cursor_page_inv ipp s) : cursor_page_inv ipp s' := by
  constructor
  · intro h'
    have h0 : s.directories.length = 0 := by rw [← hlen, h']; rfl
    have hse : s.directories = [] := List.length_eq_zero.mp h0
    rw [hsel, hcp]
    exact hs.1 hse
  · intro h'
    have h0 : 0 < s.directories.length := by
      rw [← hlen]
      exact List.length_pos.mpr h'
    have hse : s.directories ≠ [] := by
      intro h
      rw [h] at h0
      simp at h0
    obtain ⟨h1, h2⟩ := hs.2 hse
    rw [hsel, hcp, hlen]
    exact ⟨h1, h2⟩

/-- The bounds survive appending entries at the back. -/
theorem cursor_page_inv_extend (ipp : Nat) (s s' : App) (add : List DirectoryInfo)
    (hdir : s'.directories = s.directories ++ add)
    (hsel : s'.selected = s.selected) (hcp : s'.current_page = s.current_page)
    (hs : cursor_page_inv ipp s) : cursor_page_inv ipp s' := by
  constructor
  · intro h'
    rw [hdir] at h'
    obtain ⟨h1, _⟩ := List.append_eq_nil.mp h'
    rw [hsel, hcp]
    exact hs.1 h1
  · intro h'
    have hlen : 0 < s'.directories.length := List.length_pos.mpr h'
    rw [hdir, List.length_append] at hlen ⊢
    rw [hsel, hcp]
    by_cases hse : s.directories = []
    · obtain ⟨h1, h2⟩ := hs.1 hse
      rw [h1, h2]
      simpa using hlen
    · obtain ⟨h1, h2⟩ := hs.2 hse
      constructor <;> omega

/-- `update_selection_for_pagination` re-establishes the bounds outright
(even from an out-of-range cursor). -/
theorem update_selection_establishes (s : App) (ipp : Nat) :
    cursor_page_inv ipp (s.update_selection_for_pagination ipp) := by
  unfold App.update_selection_for_pagination
  by_cases hse : s.directories = []
  · rw [if_pos (by simp [hse])]
    constructor
    · intro _
      constructor
      · show s.directories.length - 1 = 0
        rw [hse]
        rfl
      · show (s.directories.length - 1) / ipp = 0
        rw [hse]
        simp
    · intro h'
      exact absurd hse h'
  · have hlen : 0 < s.directories.length := List.length_pos.mpr hse
    split
    · rename_i hcl
      constructor
      · intro h'
        exact absurd h' hse
      · intro _
        refine ⟨by simpa using Nat.sub_lt hlen Nat.one_pos, ?_⟩
        calc (s.directories.length - 1) / ipp * ipp
            ≤ s.directories.length - 1 := Nat.div_mul_le_self _ _
          _ < s.directories.length := Nat.sub_lt hlen Nat.one_pos
    · rename_i hcl
      have hsel : s.selected < s.directories.length := Nat.lt_of_not_le hcl
      constructor
      · intro h'
        exact absurd h' hse
      · intro _
        refine ⟨hsel, ?_⟩
        calc s.selected / ipp * ipp ≤ s.selected := Nat.div_mul_le_self _ _
          _ < s.directories.length := hsel

/-- Promoting a batch preserves the bounds. -/
theorem cursor_page_inv_batch (ipp : Nat) (parentFn : String → Option String)
    (lmFn : String → Option Nat) (fmtFn : Nat → String) (s : App)
    (hs : cursor_page_inv ipp s) :
    cursor_page_inv ipp (s.process_pending_batch parentFn lmFn fmtFn) := by
  obtain ⟨hd, _, hsel, hcp, _, _⟩ := process_pending_batch_shape parentFn lmFn fmtFn s
  exact cursor_page_inv_extend ipp s _ _ hd hsel hcp hs

/-- Promoting everything pending preserves the bounds. -/
theorem cursor_page_inv_remaining (ipp : Nat) (parentFn : String → Option String)
    (lmFn : String → Option Nat) (fmtFn : Nat → String) (s : App)
    (hs : cursor_page_inv ipp s) :
    cursor_page_inv ipp (s.process_remaining_pending parentFn lmFn fmtFn) := by
  obtain ⟨add, hd, hsel, hcp, _, _, _⟩ := process_remaining_pending_shape parentFn lmFn
    fmtFn s.pending_directories.length s (Nat.le_refl _)
  exact cursor_page_inv_extend ipp s _ add hd hsel hcp hs

/-- C9 as amended: the cursor bounds (`selected < len(entries)` when
non-empty, `selected = 0` when empty) are preserved by every `App`
operation — navigation, pagination, selection, admission and deletion
updates — provided all operations see the same `items_per_page`, together
with the auxiliary page bound `current_page * items_per_page <
len(entries)` that `previous_page` relies on.  (With per-frame changes of
`items_per_page` the bound fails, see the counterexample.) -/
theorem cursor_bounds_invariant (ipp : Nat) (parentFn : String → Option String)
    (lmFn : String → Option Nat) (fmtFn : Nat → String)
    (s : App) (op : AppOp) (hop : ∀ i ∈ op.ippOf, i = ipp)
    (hs : cursor_page_inv ipp s) :
    cursor_page_inv ipp (applyAppOp parentFn lmFn fmtFn s op) ∧
    ((applyAppOp parentFn lmFn fmtFn s op).directories ≠ [] →
      (applyAppOp parentFn lmFn fmtFn s op).selected <
        (applyAppOp parentFn lmFn fmtFn s op).directories.length) ∧
    ((applyAppOp parentFn lmFn fmtFn s op).directories = [] →
      (applyAppOp parentFn lmFn fmtFn s op).selected = 0) := by
  have main : cursor_page_inv ipp (applyAppOp parentFn lmFn fmtFn s op) := by
    cases op with
    | next i =>
      have hi : i = ipp := hop i (by simp [AppOp.ippOf])
      subst hi
      simp only [applyAppOp]
      unfold App.next
      split
      · exact hs
      · exact update_selection_establishes _ i
    | previous i =>
      have hi : i = ipp := hop i (by simp [AppOp.ippOf])
      subst hi
      simp only [applyAppOp]
      unfold App.previous
      split
      · exact hs
      · exact update_selection_establishes _ i
    | selectFirst =>
      simp only [applyAppOp]
      unfold App.select_first
      split
      · exact hs
      · rename_i hne
        have hse : s.directories ≠ [] := by simpa using hne
        have hlen : 0 < s.directories.length := List.length_pos.mpr hse
        obtain ⟨_, h2⟩ := hs.2 hse
        exact ⟨fun h' => absurd h' hse, fun _ => ⟨hlen, h2⟩⟩
    | selectLast =>
      simp only [applyAppOp]
      unfold App.select_last
      split
      · exact hs
      · rename_i hne
        have hse : s.directories ≠ [] := by simpa using hne
        have hlen : 0 < s.directories.length := List.length_pos.mpr hse
        obtain ⟨_, h2⟩ := hs.2 hse
        exact ⟨fun h' => absurd h' hse,
          fun _ => ⟨Nat.sub_lt hlen Nat.one_pos, h2⟩⟩
    | nextPage i =>
      have hi : i = ipp := hop i (by simp [AppOp.ippOf])
      subst hi
      simp only [applyAppOp]
      unfold App.next_page
      split
      · rename_i hguard
        by_cases hse : s.directories = []
        · exfalso
          unfold App.total_pages at hguard
          rw [if_pos (by simp [hse])] at hguard
          simp at hguard
        · by_cases hipz : i = 0
          · exfalso
            unfold App.total_pages at hguard
            rw [if_pos (by simp [hipz])] at hguard
            simp at hguard
          · have hlen : 0 < s.directories.length := List.length_pos.mpr hse
            unfold App.total_pages at hguard
            rw [if_neg (by simp [hse, hipz])] at hguard
            have hcp1 : s.current_page + 1 ≤ (s.directories.length - 1) / i := by omega
            have hb : (s.current_page + 1) * i ≤ s.directories.length - 1 :=
              Nat.le_trans (Nat.mul_le_mul_right _ hcp1) (Nat.div_mul_le_self _ _)
            refine ⟨fun h' => absurd h' hse, fun _ => ⟨?_, ?_⟩⟩
            · show (s.current_page + 1) * i < s.directories.length
              omega
            · show (s.current_page + 1) * i < s.directories.length
              omega
      · exact hs
    | previousPage i =>
      have hi : i = ipp := hop i (by simp [AppOp.ippOf])
      subst hi
      simp only [applyAppOp]
      unfold App.previous_page
      split
      · rename_i hguard
        by_cases hse : s.directories = []
        · exfalso
          obtain ⟨_, h2⟩ := hs.1 hse
          rw [h2] at hguard
          exact Nat.lt_irrefl 0 hguard
        · obtain ⟨_, h2⟩ := hs.2 hse
          have hmono : (s.current_page - 1) * i ≤ s.current_page * i :=
            Nat.mul_le_mul_right _ (Nat.sub_le _ _)
          refine ⟨fun h' => absurd h' hse, fun _ => ⟨?_, ?_⟩⟩
          · show (s.current_page - 1) * i < s.directories.length
            omega
          · show (s.current_page - 1) * i < s.directories.length
            omega
      · exact hs
    | goToPage p i =>
      have hi : i = ipp := hop i (by simp [AppOp.ippOf])
      subst hi
      simp only [applyAppOp]
      unfold App.go_to_page
      split
      · rename_i hguard
        by_cases hse : s.directories = []
        · exfalso
          unfold App.total_pages at hguard
          rw [if_pos (by simp [hse])] at hguard
          simp at hguard
        · by_cases hipz : i = 0
          · exfalso
            unfold App.total_pages at hguard
            rw [if_pos (by simp [hipz])] at hguard
            simp at hguard
          · have hlen : 0 < s.directories.length := List.length_pos.mpr hse
            unfold App.total_pages at hguard
            rw [if_neg (by simp [hse, hipz])] at hguard
            have hple : p ≤ (s.directories.length - 1) / i := by omega
            have hb : p * i ≤ s.directories.length - 1 :=
              Nat.le_trans (Nat.mul_le_mul_right _ hple) (Nat.div_mul_le_self _ _)
            refine ⟨fun h' => absurd h' hse, fun _ => ⟨?_, ?_⟩⟩
            · show p * i < s.directories.length
              omega
            · show p * i < s.directories.length
              omega
      · exact hs
    | updateSelection i =>
      have hi : i = ipp := hop i (by simp [AppOp.ippOf])
      subst hi
      simp only [applyAppOp]
      exact update_selection_establishes _ i
    | toggleSelectionMode =>
      simp only [applyAppOp]
      exact cursor_page_inv_of_same ipp s _ rfl rfl rfl hs
    | toggleCurrentSelection =>
      simp only [applyAppOp]
      unfold App.toggle_current_selection
      split
      · exact cursor_page_inv_of_same ipp s _ (by simp [List.length_modify]) rfl rfl hs
      · exact hs
    | selectAll =>
      simp only [applyAppOp]
      exact cursor_page_inv_of_same ipp s _ (by simp [App.select_all]) rfl rfl hs
    | deselectAll =>
      simp only [applyAppOp]
      exact cursor_page_inv_of_same ipp s _ (by simp [App.deselect_all]) rfl rfl hs
    | selectCurrent =>
      simp only [applyAppOp]
      unfold App.select_current
      split
      · exact cursor_page_inv_of_same ipp s _ (by simp [List.length_modify]) rfl rfl hs
      · exact hs
    | deselectCurrent =>
      simp only [applyAppOp]
      unfold App.deselect_current
      split
      · exact cursor_page_inv_of_same ipp s _ (by simp [List.length_modify]) rfl rfl hs
      · exact hs
    | addDiscovered p =>
      simp only [applyAppOp, App.add_discovered_directory]
      have hs1 : cursor_page_inv ipp { s with
          pending_directories := s.pending_directories ++ [p],
          total_discovered := s.total_discovered + 1 } :=
        cursor_page_inv_of_same ipp s _ rfl rfl rfl hs
      split
      · exact cursor_page_inv_batch ipp parentFn lmFn fmtFn _ hs1
      · exact hs1
    | processBatch =>
      simp only [applyAppOp]
      exact cursor_page_inv_batch ipp parentFn lmFn fmtFn s hs
    | processRemaining =>
      simp only [applyAppOp]
      exact cursor_page_inv_remaining ipp parentFn lmFn fmtFn s hs
    | setStatus st =>
      simp only [applyAppOp, App.set_discovery_status]
      have hs1 : cursor_page_inv ipp { s with discovery_status := st } :=
        cursor_page_inv_of_same ipp s _ rfl rfl rfl hs
      cases st with
      | complete => exact cursor_page_inv_remaining ipp parentFn lmFn fmtFn _ hs1
      | notStarted => exact hs1
      | discovering => exact hs1
      | error msg => exact hs1
    | processDeletions now ms =>
      simp only [applyAppOp]
      obtain ⟨hlen, hsel, hcp, _, _, _⟩ := process_deletion_messages_nav now s ms
      exact cursor_page_inv_of_same ipp s _ hlen hsel hcp hs
  exact ⟨main, fun h' => (main.2 h').1, fun h' => (main.1 h').1⟩

/-- Witness for C9 (amended): the invariant holds for the 25-entry app and
is preserved by `next` at the same 20 items per page, giving the cursor
bound on the result. -/
theorem cursor_bounds_invariant_witness :
    (applyAppOp (fun _ => none) (fun _ => none) (fun _ => "") app25
        (AppOp.next 20)).selected <
      (applyAppOp (fun _ => none) (fun _ => none) (fun _ => "") app25
        (AppOp.next 20)).directories.length :=
  (cursor_bounds_invariant 20 (fun _ => none) (fun _ => none) (fun _ => "") app25
      (AppOp.next 20)
      (by intro i hi; exact (by simpa [AppOp.ippOf] using hi : 20 = i).symm)
      (by unfold cursor_page_inv; refine ⟨by decide, by decide⟩)).2.1
    (by decide)

/-! ### The freed-space ledger (claim C5) -/

/-- The ledger invariant: the running total equals the sum of the history
rows. -/
def ledger_inv (s : App) : Prop :=
  s.total_freed_space = history_total s.freed_space_history

theorem history_total_append (h : List FreedSpaceEntry) (row : FreedSpaceEntry) :
    history_total (h ++ [row]) = history_total h + row.size := by
  simp [history_total]

theorem ledger_inv_result (now : Nat) (s : App) (r : DeletionResult)
    (hs : ledger_inv s) : ledger_inv (App.process_deletion_result now s r) := by
  unfold App.process_deletion_result
  split
  · split
    · unfold ledger_inv at *
      simp only
      rw [history_total_append, hs]
    · exact hs
  · exact hs

theorem ledger_inv_message (now : Nat) (s : App) (m : DeletionMessage)
    (hs : ledger_inv s) : ledger_inv (App.process_deletion_message now s m) := by
  cases m with
  | startSingle index path =>
    simp only [App.process_deletion_message]
    split
    · exact hs
    · exact hs
  | startMultiple indices paths =>
    simp only [App.process_deletion_message]
    induction indices generalizing s with
    | nil => exact hs
    | cons i l ih =>
      simp only [List.foldl_cons]
      apply ih
      split
      · exact hs
      · exact hs
  | progress index status =>
    simp only [App.process_deletion_message]
    split
    · exact hs
    · exact hs
  | complete results =>
    simp only [App.process_deletion_message]
    have hfold : ledger_inv (results.foldl (App.process_deletion_result now) s) := by
      induction results generalizing s with
      | nil => exact hs
      | cons r l ih =>
        simp only [List.foldl_cons]
        exact ih _ (ledger_inv_result now s r hs)
      
    exact hfold

theorem ledger_inv_messages (now : Nat) (s : App) (ms : List DeletionMessage)
    (hs : ledger_inv s) : ledger_inv (App.process_deletion_messages now s ms) := by
  unfold App.process_deletion_messages
  induction ms generalizing s with
  | nil => exact hs
  | cons m l ih =>
    simp only [List.foldl_cons]
    exact ih _ (ledger_inv_message now s m hs)

/-- C5: processing a deletion `Complete` result credits the ledger iff the
result is a success.  On success (first conjunct) the entry's last known
size is added to `total_freed_space`, exactly one history row with that
size (stamped with the current instant) is appended, and the entry's
`deletion_status` becomes `Deleted`.  On failure (second conjunct) the
status becomes `Error(msg)` and neither the total nor the history changes.
Consequently (third conjunct) `freed_total = Σ history[i].size` is
preserved by draining any sequence of deletion messages. -/
theorem deletion_complete_ledger (now : Nat) (s : App) (r : DeletionResult)
    (h : r.index < s.directories.length) :
    (r.success = true →
      (App.process_deletion_result now s r).total_freed_space
        = s.total_freed_space + (s.directories.get ⟨r.index, h⟩).size ∧
      (App.process_deletion_result now s r).freed_space_history
        = s.freed_space_history ++
          [{ path := r.path, size := (s.directories.get ⟨r.index, h⟩).size,
             timestamp := now }] ∧
      (App.process_deletion_result now s r).directories[r.index]?
        = some { s.directories.get ⟨r.index, h⟩ with deletion_status := .deleted }) ∧
    (r.success = false →
      (App.process_deletion_result now s r).total_freed_space = s.total_freed_space ∧
      (App.process_deletion_result now s r).freed_space_history = s.freed_space_history ∧
      (App.process_deletion_result now s r).directories[r.index]?
        = some { s.directories.get ⟨r.index, h⟩ with
            deletion_status := .error (r.error.getD "Unknown error") }) ∧
    (∀ ms : List DeletionMessage,
      s.total_freed_space = history_total s.freed_space_history →
      (App.process_deletion_messages now s ms).total_freed_space =
        history_total (App.process_deletion_messages now s ms).freed_space_history) := by
  refine ⟨?_, ?_, fun ms hinv => ledger_inv_messages now s ms hinv⟩
  · intro hsucc
    unfold App.process_deletion_result
    rw [dif_pos h, if_pos hsucc]
    refine ⟨rfl, rfl, ?_⟩
    simp only
    rw [List.getElem?_modify]
    rw [List.getElem?_eq_getElem h]
    simp
  · intro hfail
    unfold App.process_deletion_result
    rw [dif_pos h, if_neg (by rw [hfail]; exact Bool.false_ne_true)]
    refine ⟨rfl, rfl, ?_⟩
    simp only
    rw [List.getElem?_modify]
    rw [List.getElem?_eq_getElem h]
    simp

/-- Witness for C5: one 100-byte entry, a successful result at index 0,
instant 7 — the theorem instance yields the credited total. -/
theorem deletion_complete_ledger_witness :
    (App.process_deletion_result 7
        (App.new_with_ignore [{ test_entry with size := 100 }] "p" ".")
        { index := 0, path := "d", success := true, error := none }).total_freed_space
      = 0 + 100 :=
  ((deletion_complete_ledger 7
      (App.new_with_ignore [{ test_entry with size := 100 }] "p" ".")
      { index := 0, path := "d", success := true, error := none }
      (by decide)).1 rfl).1

/-! ### Admission batching and the discovered counter (claims C8, C10) -/

/-- C8: discovered paths accumulate in the pending buffer and are promoted
exactly when it fills or discovery completes.  First conjunct: while the
buffer stays below `batch_size`, `add_discovered_directory` only appends
the path and bumps the counter — nothing is promoted.  Second conjunct:
when the push makes the buffer reach `batch_size`, the whole buffer is
promoted in order to the entry list and the buffer empties.  Third
conjunct: on discovery `Complete`, everything still pending is promoted in
order.  Fourth conjunct: a promoted entry starts with size 0, display
`Calculating...`, `calc_status = NotStarted`, a best-effort
`last_modified` of the parent directory of the match, and display
`Unknown` when that is absent. -/
theorem admission_batching (parentFn : String → Option String)
    (lmFn : String → Option Nat) (fmtFn : Nat → String) (s : App) (p : String) :
    (s.pending_directories.length + 1 < s.batch_size →
      s.add_discovered_directory parentFn lmFn fmtFn p = { s with
        pending_directories := s.pending_directories ++ [p],
        total_discovered := s.total_discovered + 1 }) ∧
    (s.pending_directories.length + 1 = s.batch_size →
      (s.add_discovered_directory parentFn lmFn fmtFn p).directories =
        s.directories ++
          (s.pending_directories ++ [p]).map (mk_discovered_entry parentFn lmFn fmtFn) ∧
      (s.add_discovered_directory parentFn lmFn fmtFn p).pending_directories = [] ∧
      (s.add_discovered_directory parentFn lmFn fmtFn p).total_discovered =
        s.total_discovered + 1) ∧
    (0 < s.batch_size →
      (s.set_discovery_status parentFn lmFn fmtFn .complete).directories =
        s.directories ++
          s.pending_directories.map (mk_discovered_entry parentFn lmFn fmtFn) ∧
      (s.set_discovery_status parentFn lmFn fmtFn .complete).pending_directories = []) ∧
    (mk_discovered_entry parentFn lmFn fmtFn p =
      { path := p
        size := 0
        formatted_size := "Calculating..."
        last_modified := lmFn ((parentFn p).getD p)
        formatted_last_modified :=
          match lmFn ((parentFn p).getD p) with
          | some t => fmtFn t
          | none => "Unknown"
        selected := false
        deletion_status := .normal
        calculation_status := .notStarted }) := by
  refine ⟨?_, ?_, ?_, rfl⟩
  · intro hlt
    simp only [App.add_discovered_directory]
    rw [if_neg (by simp; omega)]
  · intro heq
    simp only [App.add_discovered_directory]
    rw [if_pos (by simp; omega)]
    set s1 : App := { s with
      pending_directories := s.pending_directories ++ [p],
      total_discovered := s.total_discovered + 1 } with hs1
    obtain ⟨hd, hp, _, _, _, htd⟩ := process_pending_batch_shape parentFn lmFn fmtFn s1
    have hmin : min s1.batch_size s1.pending_directories.length
        = s1.pending_directories.length := by
      simp [hs1]
      omega
    rw [hmin, List.take_length] at hd
    rw [hmin, List.drop_length] at hp
    refine ⟨?_, ?_, ?_⟩
    · rw [hd]
    · rw [hp]
    · rw [htd]
  · intro hb
    simp only [App.set_discovery_status]
    obtain ⟨h1, h2⟩ := process_remaining_pending_drain parentFn lmFn fmtFn
      ({ s with discovery_status := DiscoveryStatus.complete } : App).pending_directories.length
      { s with discovery_status := DiscoveryStatus.complete } (Nat.le_refl _) hb
    exact ⟨h2, h1⟩

/-- Witness for C8: batch size 5 with four pending paths; pushing `e`
fills the buffer and promotes all five entries in order. -/
theorem admission_batching_witness :
    (({ App.new_with_ignore [] "node_modules" "." with
        pending_directories := ["a", "b", "c", "d"]
        total_discovered := 4 } : App).add_discovered_directory
        (fun _ => none) (fun _ => none) (fun _ => "") "e").pending_directories = [] :=
  (((admission_batching (fun _ => none) (fun _ => none) (fun _ => "")
      { App.new_with_ignore [] "node_modules" "." with
        pending_directories := ["a", "b", "c", "d"]
        total_discovered := 4 }
      "e").2.1) (by decide)).2.1

/-- The progressive-loading operations of C10. -/
inductive ProgressiveOp where
  | addDiscovered (p : String)
  | processBatch
  | processRemaining
  | setStatus (st : DiscoveryStatus)

/-- Interpret one progressive-loading operation. -/
def applyProgressiveOp (parentFn : String → Option String) (lmFn : String → Option Nat)
    (fmtFn : Nat → String) (s : App) : ProgressiveOp → App
  | .addDiscovered p => s.add_discovered_directory parentFn lmFn fmtFn p
  | .processBatch => s.process_pending_batch parentFn lmFn fmtFn
  | .processRemaining => s.process_remaining_pending parentFn lmFn fmtFn
  | .setStatus st => s.set_discovery_status parentFn lmFn fmtFn st

/-- Interpret a sequence of progressive-loading operations. -/
def applyProgressiveOps (parentFn : String → Option String) (lmFn : String → Option Nat)
    (fmtFn : Nat → String) (s : App) (ops : List ProgressiveOp) : App :=
  ops.foldl (applyProgressiveOp parentFn lmFn fmtFn) s

/-- The counter invariant of C10. -/
def counter_inv (s : App) : Prop :=
  s.total_discovered = s.directories.length + s.pending_directories.length

theorem counter_inv_batch (parentFn : String → Option String) (lmFn : String → Option Nat)
    (fmtFn : Nat → String) (s : App) (hs : counter_inv s) :
    counter_inv (s.process_pending_batch parentFn lmFn fmtFn) := by
  obtain ⟨hd, hp, _, _, _, htd⟩ := process_pending_batch_shape parentFn lmFn fmtFn s
  unfold counter_inv at *
  rw [htd, hd, hp]
  simp only [List.length_append, List.length_map, List.length_take, List.length_drop]
  omega

theorem counter_inv_op (parentFn : String → Option String) (lmFn : String → Option Nat)
    (fmtFn : Nat → String) (s : App) (op : ProgressiveOp) (hs : counter_inv s) :
    counter_inv (applyProgressiveOp parentFn lmFn fmtFn s op) := by
  cases op with
  | addDiscovered p =>
    simp only [applyProgressiveOp, App.add_discovered_directory]
    have hs1 : counter_inv { s with
        pending_directories := s.pending_directories ++ [p],
        total_discovered := s.total_discovered + 1 } := by
      unfold counter_inv at *
      simp
      omega
    split
    · exact counter_inv_batch parentFn lmFn fmtFn _ hs1
    · exact hs1
  | processBatch =>
    exact counter_inv_batch parentFn lmFn fmtFn s hs
  | processRemaining =>
    simp only [applyProgressiveOp]
    obtain ⟨add, hd, _, _, _, htd, hsum⟩ := process_remaining_pending_shape parentFn lmFn
      fmtFn s.pending_directories.length s (Nat.le_refl _)
    unfold counter_inv at *
    rw [htd, hsum, hs]
  | setStatus st =>
    simp only [applyProgressiveOp, App.set_discovery_status]
    have hs1 : counter_inv { s with discovery_status := st } := hs
    cases st with
    | complete =>
      obtain ⟨add, hd, _, _, _, htd, hsum⟩ := process_remaining_pending_shape parentFn lmFn
        fmtFn ({ s with discovery_status := DiscoveryStatus.complete
          } : App).pending_directories.length _ (Nat.le_refl _)
      unfold counter_inv at *
      rw [htd, hsum, hs1]
    | notStarted => exact hs1
    | discovering => exact hs1
    | error msg => exact hs1

/-- C10: starting from an `App` built over an empty entry list, any
sequence of `add_discovered_directory`, `process_pending_batch`,
`process_remaining_pending` and `set_discovery_status` calls keeps
`total_discovered = len(directories) + len(pending_directories)` (first
conjunct); moreover no operation ever removes entries or decreases the
counter — both are monotone (second conjunct), so the numbers backing the
progress string never go down. -/
theorem total_discovered_invariant (parentFn : String → Option String)
    (lmFn : String → Option Nat) (fmtFn : Nat → String) (pattern path : String)
    (ops : List ProgressiveOp) :
    counter_inv (applyProgressiveOps parentFn lmFn fmtFn
      (App.new_with_ignore [] pattern path) ops) ∧
    (∀ (s : App) (op : ProgressiveOp),
      s.directories.length ≤
        (applyProgressiveOp parentFn lmFn fmtFn s op).directories.length ∧
      s.total_discovered ≤
        (applyProgressiveOp parentFn lmFn fmtFn s op).total_discovered) := by
  constructor
  · have hstep : ∀ (l : List ProgressiveOp) (s : App), counter_inv s →
        counter_inv (applyProgressiveOps parentFn lmFn fmtFn s l) := by
      intro l
      induction l with
      | nil => intro s hs; exact hs
      | cons op l ih =>
        intro s hs
        exact ih _ (counter_inv_op parentFn lmFn fmtFn s op hs)
    exact hstep ops _ (by unfold counter_inv App.new_with_ignore; simp)
  · intro s op
    cases op with
    | addDiscovered p =>
      simp only [applyProgressiveOp, App.add_discovered_directory]
      split
      · obtain ⟨hd, _, _, _, _, htd⟩ := process_pending_batch_shape parentFn lmFn fmtFn { s with
            pending_directories := s.pending_directories ++ [p],
            total_discovered := s.total_discovered + 1 }
        rw [hd, htd]
        simp
      · simp
    | processBatch =>
      obtain ⟨hd, _, _, _, _, htd⟩ := process_pending_batch_shape parentFn lmFn fmtFn s
      simp only [applyProgressiveOp]
      rw [hd, htd]
      simp
    | processRemaining =>
      obtain ⟨add, hd, _, _, _, htd, _⟩ := process_remaining_pending_shape parentFn lmFn
        fmtFn s.pending_directories.length s (Nat.le_refl _)
      simp only [applyProgressiveOp]
      rw [hd, htd]
      simp
    | setStatus st =>
      simp only [applyProgressiveOp, App.set_discovery_status]
      cases st with
      | complete =>
        obtain ⟨add, hd, _, _, _, htd, _⟩ := process_remaining_pending_shape parentFn lmFn
          fmtFn ({ s with discovery_status := DiscoveryStatus.complete
            } : App).pending_directories.length _ (Nat.le_refl _)
        rw [hd, htd]
        simp
      | notStarted => simp
      | discovering => simp
      | error msg => simp
